import Mathlib

/-!
# httplogger: the format compiler, the token functions and the response observer

A shallow embedding of `httplogger.go` and `ResponseWriter.go`.

* Go strings are lists of characters (`Str`); a literal is written `"...".toList`.
* Go `int`, `int64` and `time.Duration` values are integers; where the source
  adds to a counter the 64-bit wrap-around is written out (`wrapInt`).
* A run-time panic (calling a nil function value, indexing past the end of a
  slice) is the result `none`.
* The standard-library functions the source calls (`regexp`, `strconv`,
  `time.Time.Format`, `net/http` header access) are modelled next to the place
  where they are used, each with a comment naming the Go function it follows.
-/

namespace Httplogger

/-- A Go string, as its sequence of characters. -/
abbrev Str := List Char

/-! ## `net/http` headers -/

/-- Go `http.Header`, a `map[string][]string`, as an association list; a lookup
takes the first entry with the key. -/
abbrev Header := List (Str × List Str)

/-- Go `textproto.validHeaderFieldByte`: the token characters of RFC 7230. -/
def validHeaderFieldByte (c : Char) : Bool :=
  c.isAlphanum || "!#$%&'*+-.^_|~".toList.contains c || c == Char.ofNat 96

/-- The second loop of Go `textproto.canonicalMIMEHeaderKey`: upper-case the first
letter and every letter after a hyphen, lower-case the other letters. -/
def canonicalLoop : Bool → Str → Str
  | _, [] => []
  | upper, c :: cs =>
    let c1 := if upper && c.isLower then c.toUpper
              else if !upper && c.isUpper then c.toLower else c
    c1 :: canonicalLoop (c1 == '-') cs

/-- Go `http.CanonicalHeaderKey`: a key holding a character that is not a header
token character is returned unchanged, any other key is canonicalised. -/
def CanonicalHeaderKey (s : Str) : Str :=
  if s.all validHeaderFieldByte then canonicalLoop true s else s

/-- Go map indexing `h[key]` with the comma-ok form. -/
def Header.index (h : Header) (key : Str) : Option (List Str) :=
  h.lookup key

/-- Go `Header.Get`: the first value stored under the canonical form of `key`,
or the empty string. -/
def Header.Get (h : Header) (key : Str) : Str :=
  match h.index (CanonicalHeaderKey key) with
  | some (v :: _) => v
  | _ => []

/-- Go `Header.Set`: replace the values stored under the canonical form of `key`. -/
def Header.Set (h : Header) (key value : Str) : Header :=
  (CanonicalHeaderKey key, [value]) :: h.filter (fun e => e.1 != CanonicalHeaderKey key)

/-- Go `strings.Join`. -/
def stringsJoin : List Str → Str → Str
  | [], _ => []
  | [a], _ => a
  | a :: b :: rest, sep => a ++ sep ++ stringsJoin (b :: rest) sep

/-! ## `strconv` -/

/-- Go `int` is 64 bits wide: the two's-complement value of an integer. -/
def wrapInt (x : Int) : Int :=
  (x + 2 ^ 63) % 2 ^ 64 - 2 ^ 63

/-- The value of a run of decimal digits, `none` when the run is empty or holds
another character. -/
def parseDigits (s : Str) : Option Nat :=
  if s ≠ [] ∧ s.all Char.isDigit = true then
    some (s.foldl (fun acc c => 10 * acc + (c.toNat - '0'.toNat)) 0)
  else none

/-- Go `strconv.Atoi`: an optional sign followed by decimal digits, with an error
(`none`) for any other text and for a value outside the 64-bit `int` range. -/
def Atoi (s : Str) : Option Int :=
  match s with
  | '-' :: ds =>
    match parseDigits ds with
    | some n => if n ≤ 2 ^ 63 then some (-(n : Int)) else none
    | none => none
  | '+' :: ds =>
    match parseDigits ds with
    | some n => if n < 2 ^ 63 then some (n : Int) else none
    | none => none
  | ds =>
    match parseDigits ds with
    | some n => if n < 2 ^ 63 then some (n : Int) else none
    | none => none

/-- Go `strconv.Itoa` and `strconv.FormatInt(_, 10)`: the decimal digits, with a
leading minus sign for a negative number. -/
def Itoa (n : Int) : Str :=
  if n < 0 then '-' :: Nat.toDigits 10 n.natAbs else Nat.toDigits 10 n.natAbs

/-! ## ResponseWriter.go -/

/-- The wrapped `http.ResponseWriter`: its header map, and the status codes and
buffers forwarded to it, in order. -/
structure HttpResponseWriter where
  header : Header
  statusCodes : List Int
  bodies : List (List UInt8)

/-- The struct `responseWriter`. -/
structure responseWriter where
  ResponseWriter : HttpResponseWriter
  statusCode : Int
  contentLength : Int

/-- The interface `ResponseWriter`; `responseWriter` is its implementation. -/
abbrev ResponseWriter := responseWriter

def NewResponseWriter (w : HttpResponseWriter) : ResponseWriter :=
  { ResponseWriter := w, statusCode := 0, contentLength := 0 }

def responseWriter.StatusCode (w : responseWriter) : Int :=
  w.statusCode

def responseWriter.Header (w : responseWriter) : Header :=
  w.ResponseWriter.header

def responseWriter.ContentLength (w : responseWriter) : Int :=
  let clh := w.ResponseWriter.header.Get "content-length".toList
  match Atoi clh with
  | some cl => cl
  | none => w.contentLength

def responseWriter.WriteHeader (w : responseWriter) (statusCode : Int) : responseWriter :=
  { w with
    statusCode := statusCode
    ResponseWriter :=
      { w.ResponseWriter with statusCodes := w.ResponseWriter.statusCodes ++ [statusCode] } }

def responseWriter.Flush (w : responseWriter) : responseWriter :=
  w

def responseWriter.Write (w : responseWriter) (b : List UInt8) : responseWriter :=
  { statusCode := if w.statusCode = 0 then 200 else w.statusCode
    contentLength := wrapInt (w.contentLength + b.length)
    ResponseWriter := { w.ResponseWriter with bodies := w.ResponseWriter.bodies ++ [b] } }

/-- A call made on the observer by the downstream handler. `setHeader` is
`w.Header().Set(key, value)`. -/
inductive Call where
  | writeHeader (statusCode : Int)
  | write (b : List UInt8)
  | setHeader (key value : Str)
  | flush

def responseWriter.call (w : responseWriter) : Call → responseWriter
  | .writeHeader c => w.WriteHeader c
  | .write b => w.Write b
  | .setHeader k v =>
    { w with ResponseWriter := { w.ResponseWriter with header := w.ResponseWriter.header.Set k v } }
  | .flush => w.Flush

/-- The observer after a sequence of calls, first call first. -/
def responseWriter.calls (w : responseWriter) (cs : List Call) : responseWriter :=
  cs.foldl responseWriter.call w

def Call.isWrite : Call → Bool
  | .write _ => true
  | _ => false

def Call.isWriteHeader : Call → Bool
  | .writeHeader _ => true
  | _ => false

/-! ## `time.Time.Format` -/

/-- A `time.Time`, as the calendar and clock reading in its own location:
`month` is 1..12, `weekday` is 0 (Sunday)..6, `yday` is the day of the year,
`zoneOffset` is the offset east of UTC in seconds. -/
structure Time where
  year : Int
  month : Nat
  day : Nat
  hour : Nat
  minute : Nat
  second : Nat
  nanosecond : Nat
  weekday : Nat
  yday : Nat
  zoneName : Str
  zoneOffset : Int

/-- A `time.Duration`: a count of nanoseconds. -/
abbrev Duration := Int

/-- Go `Duration.Milliseconds`: integer division, truncating toward zero. -/
def Duration.Milliseconds (d : Duration) : Int :=
  Int.tdiv d 1000000

/-- Go `Duration.Microseconds`: the whole duration in microseconds. -/
def Duration.Microseconds (d : Duration) : Int :=
  Int.tdiv d 1000

/-- The layout elements Go `time` recognises (the `std...` constants). -/
inductive Std where
  | stdLongMonth | stdMonth | stdNumMonth | stdZeroMonth
  | stdLongWeekDay | stdWeekDay
  | stdDay | stdUnderDay | stdZeroDay | stdUnderYearDay | stdZeroYearDay
  | stdHour | stdHour12 | stdZeroHour12
  | stdMinute | stdZeroMinute | stdSecond | stdZeroSecond
  | stdLongYear | stdYear | stdPM | stdpm | stdTZ
  | stdISO8601TZ | stdISO8601SecondsTZ | stdISO8601ShortTZ
  | stdISO8601ColonTZ | stdISO8601ColonSecondsTZ
  | stdNumTZ | stdNumSecondsTz | stdNumShortTZ | stdNumColonTZ | stdNumColonSecondsTZ
  | stdFracSecond0 (digits : Nat) (sep : Char)
  | stdFracSecond9 (digits : Nat) (sep : Char)
  deriving DecidableEq

/-- Go `time.startsWithLowerCase`. -/
def startsWithLowerCase : Str → Bool
  | [] => false
  | c :: _ => c.isLower

/-- The `switch` of Go `time.nextStdChunk` at one position of the layout: the
layout element that starts here, with the number of layout characters it covers.
(`_2006` is a literal underscore followed by the year, which is what the scan
yields with no element at the underscore.) -/
def stdAt (l : Str) : Option (Std × Nat) :=
  match l with
  | 'J' :: _ =>
    if "January".toList.isPrefixOf l then some (.stdLongMonth, 7)
    else if "Jan".toList.isPrefixOf l && !startsWithLowerCase (l.drop 3) then some (.stdMonth, 3)
    else none
  | 'M' :: _ =>
    if "Monday".toList.isPrefixOf l then some (.stdLongWeekDay, 6)
    else if "Mon".toList.isPrefixOf l && !startsWithLowerCase (l.drop 3) then some (.stdWeekDay, 3)
    else if "MST".toList.isPrefixOf l then some (.stdTZ, 3)
    else none
  | '0' :: '1' :: _ => some (.stdZeroMonth, 2)
  | '0' :: '2' :: _ => some (.stdZeroDay, 2)
  | '0' :: '3' :: _ => some (.stdZeroHour12, 2)
  | '0' :: '4' :: _ => some (.stdZeroMinute, 2)
  | '0' :: '5' :: _ => some (.stdZeroSecond, 2)
  | '0' :: '6' :: _ => some (.stdYear, 2)
  | '0' :: '0' :: '2' :: _ => some (.stdZeroYearDay, 3)
  | '1' :: '5' :: _ => some (.stdHour, 2)
  | '1' :: _ => some (.stdNumMonth, 1)
  | '2' :: _ => if "2006".toList.isPrefixOf l then some (.stdLongYear, 4) else some (.stdDay, 1)
  | '_' :: '2' :: rest => if "006".toList.isPrefixOf rest then none else some (.stdUnderDay, 2)
  | '_' :: '_' :: '2' :: _ => some (.stdUnderYearDay, 3)
  | '3' :: _ => some (.stdHour12, 1)
  | '4' :: _ => some (.stdMinute, 1)
  | '5' :: _ => some (.stdSecond, 1)
  | 'P' :: 'M' :: _ => some (.stdPM, 2)
  | 'p' :: 'm' :: _ => some (.stdpm, 2)
  | '-' :: _ =>
    if "-070000".toList.isPrefixOf l then some (.stdNumSecondsTz, 7)
    else if "-07:00:00".toList.isPrefixOf l then some (.stdNumColonSecondsTZ, 9)
    else if "-0700".toList.isPrefixOf l then some (.stdNumTZ, 5)
    else if "-07:00".toList.isPrefixOf l then some (.stdNumColonTZ, 6)
    else if "-07".toList.isPrefixOf l then some (.stdNumShortTZ, 3)
    else none
  | 'Z' :: _ =>
    if "Z070000".toList.isPrefixOf l then some (.stdISO8601SecondsTZ, 7)
    else if "Z07:00:00".toList.isPrefixOf l then some (.stdISO8601ColonSecondsTZ, 9)
    else if "Z0700".toList.isPrefixOf l then some (.stdISO8601TZ, 5)
    else if "Z07:00".toList.isPrefixOf l then some (.stdISO8601ColonTZ, 6)
    else if "Z07".toList.isPrefixOf l then some (.stdISO8601ShortTZ, 3)
    else none
  | c :: d :: rest =>
    if (c == '.' || c == ',') && (d == '0' || d == '9') then
      let run := (d :: rest).takeWhile (· == d)
      match (d :: rest).dropWhile (· == d) with
      | e :: _ =>
        if e.isDigit then none
        else some (if d == '9' then .stdFracSecond9 run.length c else .stdFracSecond0 run.length c,
                   run.length + 1)
      | [] => some (if d == '9' then .stdFracSecond9 run.length c else .stdFracSecond0 run.length c,
                    run.length + 1)
    else none
  | _ => none

/-- Go `time.appendInt`: decimal digits, zero-padded on the left to `width`,
after a minus sign for a negative value. -/
def appendInt (x : Int) (width : Nat) : Str :=
  let ds := Nat.toDigits 10 x.natAbs
  (if x < 0 then ['-'] else []) ++ List.replicate (width - ds.length) '0' ++ ds

/-- Go `Month.String`. -/
def monthString (m : Nat) : Str :=
  match ["January", "February", "March", "April", "May", "June", "July", "August",
         "September", "October", "November", "December"].get? (m - 1) with
  | some s => if 1 ≤ m then s.toList else "%!Month(".toList ++ Nat.toDigits 10 m ++ [')']
  | none => "%!Month(".toList ++ Nat.toDigits 10 m ++ [')']

/-- Go `Weekday.String`. -/
def weekdayString (d : Nat) : Str :=
  match ["Sunday", "Monday", "Tuesday", "Wednesday", "Thursday", "Friday",
         "Saturday"].get? d with
  | some s => s.toList
  | none => "%!Weekday(".toList ++ Nat.toDigits 10 d ++ [')']

/-- Go `time.appendNano`: the separator and the first `digits` of the nine
nanosecond digits; the `9` form drops trailing zeros and then a bare separator. -/
def appendNano (nanosec : Nat) (trim : Bool) (digits : Nat) (sep : Char) : Str :=
  if trim && (digits == 0 || nanosec == 0) then []
  else
    let b := sep :: (appendInt nanosec 9).take digits
    if trim then
      let b1 := (b.reverse.dropWhile (· == '0')).reverse
      if b1.getLast? = some sep then b1.dropLast else b1
    else b

/-- The `hh[:]mm[[:]ss]` rendering of a zone offset in Go `Time.appendFormat`. -/
def appendZone (offset : Int) (colon short seconds : Bool) : Str :=
  let zone := Int.tdiv offset 60
  let sign := if zone < 0 then '-' else '+'
  let zone1 := if zone < 0 then -zone else zone
  let absoffset := if zone < 0 then -offset else offset
  [sign] ++ appendInt (Int.tdiv zone1 60) 2
    ++ (if colon then [':'] else [])
    ++ (if short then [] else appendInt (Int.tmod zone1 60) 2)
    ++ (if seconds then (if colon then [':'] else []) ++ appendInt (Int.tmod absoffset 60) 2
        else [])

/-- The text Go `Time.appendFormat` writes for one layout element. -/
def appendStd (t : Time) : Std → Str
  | .stdYear => appendInt (Int.tmod (if t.year < 0 then -t.year else t.year) 100) 2
  | .stdLongYear => appendInt t.year 4
  | .stdMonth => (monthString t.month).take 3
  | .stdLongMonth => monthString t.month
  | .stdNumMonth => appendInt t.month 0
  | .stdZeroMonth => appendInt t.month 2
  | .stdWeekDay => (weekdayString t.weekday).take 3
  | .stdLongWeekDay => weekdayString t.weekday
  | .stdDay => appendInt t.day 0
  | .stdUnderDay => (if t.day < 10 then [' '] else []) ++ appendInt t.day 0
  | .stdZeroDay => appendInt t.day 2
  | .stdUnderYearDay =>
    (if t.yday < 100 then ' ' :: (if t.yday < 10 then [' '] else []) else [])
      ++ appendInt t.yday 0
  | .stdZeroYearDay => appendInt t.yday 3
  | .stdHour => appendInt t.hour 2
  | .stdHour12 => appendInt (if t.hour % 12 = 0 then 12 else t.hour % 12 : Nat) 0
  | .stdZeroHour12 => appendInt (if t.hour % 12 = 0 then 12 else t.hour % 12 : Nat) 2
  | .stdMinute => appendInt t.minute 0
  | .stdZeroMinute => appendInt t.minute 2
  | .stdSecond => appendInt t.second 0
  | .stdZeroSecond => appendInt t.second 2
  | .stdPM => if t.hour ≥ 12 then "PM".toList else "AM".toList
  | .stdpm => if t.hour ≥ 12 then "pm".toList else "am".toList
  | .stdISO8601TZ => if t.zoneOffset = 0 then ['Z'] else appendZone t.zoneOffset false false false
  | .stdISO8601ColonTZ =>
    if t.zoneOffset = 0 then ['Z'] else appendZone t.zoneOffset true false false
  | .stdISO8601SecondsTZ =>
    if t.zoneOffset = 0 then ['Z'] else appendZone t.zoneOffset false false true
  | .stdISO8601ShortTZ =>
    if t.zoneOffset = 0 then ['Z'] else appendZone t.zoneOffset false true false
  | .stdISO8601ColonSecondsTZ =>
    if t.zoneOffset = 0 then ['Z'] else appendZone t.zoneOffset true false true
  | .stdNumTZ => appendZone t.zoneOffset false false false
  | .stdNumColonTZ => appendZone t.zoneOffset true false false
  | .stdNumSecondsTz => appendZone t.zoneOffset false false true
  | .stdNumShortTZ => appendZone t.zoneOffset false true false
  | .stdNumColonSecondsTZ => appendZone t.zoneOffset true false true
  | .stdTZ => if t.zoneName ≠ [] then t.zoneName else appendZone t.zoneOffset false false false
  | .stdFracSecond0 n sep => appendNano t.nanosecond false n sep
  | .stdFracSecond9 n sep => appendNano t.nanosecond true n sep

/-- The scan of Go `Time.Format`: left to right, a layout element is replaced by
its rendering and the `skip` characters it covers are dropped; any other
character is copied. -/
def formatFrom (t : Time) : Nat → Str → Str
  | _, [] => []
  | skip + 1, _ :: cs => formatFrom t skip cs
  | 0, c :: cs =>
    match stdAt (c :: cs) with
    | some (std, len) => appendStd t std ++ formatFrom t (len - 1) cs
    | none => c :: formatFrom t 0 cs

/-- Go `Time.Format`. -/
def Time.Format (t : Time) (layout : Str) : Str :=
  formatFrom t 0 layout

/-! ## `float64` and `strconv.FormatFloat` -/

/-- A finite `float64` value, as the exact fraction `num / den` it stands for,
with its sign. -/
structure Float64 where
  neg : Bool
  num : Nat
  den : Nat

/-- The integer nearest to `a / b`, a tie going to the even one. -/
def roundHalfEven (a b : Nat) : Nat :=
  let q := a / b
  let r := a % b
  if 2 * r < b then q
  else if b < 2 * r then q + 1
  else if q % 2 = 0 then q else q + 1

/-- Halving until the number is below 2, at most `fuel` times. -/
def floorLog2Fuel : Nat → Nat → Nat
  | 0, _ => 0
  | fuel + 1, n => if n < 2 then 0 else floorLog2Fuel fuel (n / 2) + 1

/-- The `k` with `2 ^ k ≤ n < 2 ^ (k + 1)` for `0 < n`; the fuel `n` is more
than the number of halvings. -/
def floorLog2 (n : Nat) : Nat :=
  floorLog2Fuel n n

/-- The binary exponent of `a / b` for `0 < a` and `0 < b`: the `E` with
`2 ^ E ≤ a / b < 2 ^ (E + 1)`. -/
def binaryExponent (a b : Nat) : Int :=
  let k : Int := (floorLog2 a : Int) - (floorLog2 b : Int)
  if b * 2 ^ k.toNat ≤ a * 2 ^ (-k).toNat then k else k - 1

/-- IEEE 754 rounding to the nearest `float64`, ties to even, of the fraction
`a / b` with `0 < b`: 53 significant bits, the exponent not below that of the
subnormal numbers. Fractions this development rounds are below `2 ^ 65`, so no
overflow case is needed. -/
def roundFloat64 (a b : Nat) : Nat × Nat :=
  if a = 0 then (0, 1)
  else
    let e : Int := max (binaryExponent a b - 52) (-1074)
    let m := roundHalfEven (a * 2 ^ (-e).toNat) (b * 2 ^ e.toNat)
    (m * 2 ^ e.toNat, 2 ^ (-e).toNat)

/-- Go conversion `float64(n)` of an integer. -/
def Float64.ofInt (n : Int) : Float64 :=
  let r := roundFloat64 n.natAbs 1
  { neg := decide (n < 0), num := r.1, den := r.2 }

/-- Go `f / c` of a `float64` by a positive integer constant. -/
def Float64.divNat (f : Float64) (c : Nat) : Float64 :=
  let r := roundFloat64 f.num (f.den * c)
  { neg := f.neg, num := r.1, den := r.2 }

/-- Go `strconv.FormatFloat(f, 'f', prec, 64)` for `prec ≥ 0`: the decimal
expansion of the exact value, rounded to `prec` fractional digits with ties to
even; the decimal point is written only when `prec > 0`. -/
def FormatFloat (f : Float64) (prec : Nat) : Str :=
  let k := roundHalfEven (f.num * 10 ^ prec) f.den
  let frac := Nat.toDigits 10 (k % 10 ^ prec)
  (if f.neg then ['-'] else []) ++ Nat.toDigits 10 (k / 10 ^ prec)
    ++ (if prec = 0 then []
        else '.' :: (List.replicate (prec - frac.length) '0' ++ frac))

/-! ## `regexp`: the token pattern -/

/-- The character class `[-\w]` of `tokenRegexp`: ASCII letters, digits,
underscore and hyphen. -/
def isNameChar (c : Char) : Bool :=
  c == '-' || c == '_' || c.isAlphanum

/-- One match of `tokenRegexp`: the matched text `v[0]`, the token name `v[1]`
and the argument `v[2]` (empty when the bracket group did not take part). -/
structure Submatch where
  text : Str
  name : Str
  arg : Str
  deriving DecidableEq

/-- The optional group `(?:\[([^\]]+)\])?` tried at the text after a name: the
argument when an opening bracket is followed by one or more characters other
than the closing bracket and then by a closing bracket. -/
def matchArg : Str → Option Str
  | '[' :: cs =>
    let a := cs.takeWhile (· != ']')
    match cs.dropWhile (· != ']') with
    | ']' :: _ => if a.isEmpty then none else some a
    | _ => none
  | _ => none

/-- A match of `tokenRegexp` that starts at the head of the text: a colon, the
longest run of two or more name characters, and the bracket group when it
matches there. -/
def matchToken : Str → Option Submatch
  | ':' :: cs =>
    let name := cs.takeWhile isNameChar
    if 2 ≤ name.length then
      match matchArg (cs.dropWhile isNameChar) with
      | some a => some { text := ':' :: name ++ '[' :: a ++ [']'], name := name, arg := a }
      | none => some { text := ':' :: name, name := name, arg := [] }
    else none
  | _ => none

/-- The scan of `tokenRegexp.FindAllStringSubmatch(s, -1)`: the leftmost match,
then the leftmost match in the text after it, and so on; `skip` counts the
characters of the current match still to pass over. -/
def findAllFrom : Nat → Str → List Submatch
  | _, [] => []
  | skip + 1, _ :: cs => findAllFrom skip cs
  | 0, c :: cs =>
    match matchToken (c :: cs) with
    | some m => m :: findAllFrom (m.text.length - 1) cs
    | none => findAllFrom 0 cs

/-- The call `tokenRegexp.FindAllStringSubmatch(template, -1)` of `Compile`. -/
def tokenRegexp.FindAllStringSubmatch (template : Str) : List Submatch :=
  findAllFrom 0 template

/-- The scan of `tokenRegexp.ReplaceAllString(s, repl)` for a replacement text
without `$`: every match is replaced by `repl`, other characters are copied. -/
def replaceAllFrom (repl : Str) : Nat → Str → Str
  | _, [] => []
  | skip + 1, _ :: cs => replaceAllFrom repl skip cs
  | 0, c :: cs =>
    match matchToken (c :: cs) with
    | some m => repl ++ replaceAllFrom repl (m.text.length - 1) cs
    | none => c :: replaceAllFrom repl 0 cs

/-- The call `tokenRegexp.ReplaceAllString(template, repl)`. -/
def tokenRegexp.ReplaceAllString (template repl : Str) : Str :=
  replaceAllFrom repl 0 template

/-! ## httplogger.go -/

/-- The part of `url.URL` the logger reads. -/
structure URL where
  Path : Str

/-- The part of `http.Request` the logger reads. `basicAuth` is the result of
`req.BasicAuth()`: the user name and password when the request carries HTTP
Basic credentials. -/
structure Request where
  Method : Str
  URL : Option URL
  Proto : Str
  Header : Header
  RemoteAddr : Str
  basicAuth : Option (Str × Str)

/-- Go `Request.Referer`. -/
def Request.Referer (r : Request) : Str :=
  r.Header.Get "Referer".toList

/-- Go `Request.UserAgent`. -/
def Request.UserAgent (r : Request) : Str :=
  r.Header.Get "User-Agent".toList

def defaultTimeFormat : Str := "web".toList

def timeFormats (key : Str) : Option Str :=
  if key = "clf".toList then some "10/Oct/2000:13:55:36 +0000".toList
  else if key = "iso".toList then some "2000-10-10T13:55:36.000Z".toList
  else if key = "web".toList then some "Tue, 10 Oct 2000 13:55:36 GMT".toList
  else none

def logFormats (key : Str) : Option Str :=
  if key = "combined".toList then
    some ":remote-addr - :remote-user [:date[clf]] \":method :url HTTP/:http-version\" :status :res[content-length] \":referrer\" \":user-agent\"".toList
  else if key = "common".toList then
    some ":remote-addr - :remote-user [:date[clf]] \":method :url HTTP/:http-version\" :status :res[content-length]".toList
  else if key = "dev".toList then
    some "\x1b[0m:method :url :status[clr] :response-time ms - :res[content-length]".toList
  else if key = "short".toList then
    some ":remote-addr :remote-user :method :url HTTP/:http-version :status :res[content-length] - :response-time ms".toList
  else if key = "tiny".toList then
    some ":method :url :status :res[content-length] - :response-time ms".toList
  else if key = "default".toList then
    some ":remote-addr - :remote-user [:date] \":method :url HTTP/:http-version\" :status :res[content-length] \":referrer\" \":user-agent\"".toList
  else none

/-- The type `TokenFunc`. -/
abbrev TokenFunc := ResponseWriter → Request → Time → Duration → Str → Str

/-- The type `FormatFunc`; `none` is a run-time panic. -/
abbrev FormatFunc := ResponseWriter → Request → Time → Duration → Option (Str × List Str)

def colorStatus (status : Int) (s : Str) : Str :=
  if status ≥ 500 then "\x1b[31m".toList ++ s ++ "\x1b[0m".toList
  else if status ≥ 400 then "\x1b[33m".toList ++ s ++ "\x1b[0m".toList
  else if status ≥ 300 then "\x1b[36m".toList ++ s ++ "\x1b[0m".toList
  else if status ≥ 200 then "\x1b[32m".toList ++ s ++ "\x1b[0m".toList
  else s

def tokenRemoteAddr : TokenFunc := fun _res req _ts _dur _arg =>
  req.RemoteAddr

def tokenRemoteUser : TokenFunc := fun _res req _ts _dur _arg =>
  match req.basicAuth with
  | some (user, _) => user
  | none => []

def tokenDate : TokenFunc := fun _res _req ts _dur arg =>
  match timeFormats arg with
  | some f => ts.Format f
  | none => ts.Format ((timeFormats defaultTimeFormat).getD [])

def tokenMethod : TokenFunc := fun _res req _ts _dur _arg =>
  req.Method

def tokenUrl : TokenFunc := fun _res req _ts _dur _arg =>
  match req.URL with
  | some u => u.Path
  | none => []

def tokenHttpVersion : TokenFunc := fun _res req _ts _dur _arg =>
  if req.Proto.length ≥ 5 ∧ req.Proto.take 5 = "HTTP/".toList then req.Proto.drop 5
  else req.Proto

def tokenStatus : TokenFunc := fun res _req _ts _dur arg =>
  let statusCode := res.StatusCode
  let val := if statusCode ≠ 0 then Itoa statusCode else "-".toList
  if arg = "clr".toList then colorStatus statusCode val else val

def tokenReq : TokenFunc := fun _res req _ts _dur arg =>
  match req.Header.index (CanonicalHeaderKey arg) with
  | some vals => stringsJoin vals ", ".toList
  | none => []

def tokenRes : TokenFunc := fun res _req _ts _dur arg =>
  match res.Header.index (CanonicalHeaderKey arg) with
  | some vals => stringsJoin vals ", ".toList
  | none => []

def tokenReferrer : TokenFunc := fun _res req _ts _dur _arg =>
  req.Referer

def tokenUserAgent : TokenFunc := fun _res req _ts _dur _arg =>
  req.UserAgent

def tokenResponseTime : TokenFunc := fun _res _req _ts dur arg =>
  let digits : Int := match Atoi arg with
    | some d => d
    | none => 3
  if digits > 0 then
    let f := (Float64.ofInt (dur.Milliseconds * 1000 + dur.Microseconds)).divNat 1000
    FormatFloat f digits.toNat
  else Itoa dur.Milliseconds

/-- The token registry, a `map[string]TokenFunc`: `none` is the nil function
value a Go map yields for a missing key. -/
abbrev Registry := Str → Option TokenFunc

/-- The initial value of the package variable `tokenFuncs`. -/
def tokenFuncs : Registry := fun name =>
  if name = "remote-addr".toList then some tokenRemoteAddr
  else if name = "remote-user".toList then some tokenRemoteUser
  else if name = "date".toList then some tokenDate
  else if name = "method".toList then some tokenMethod
  else if name = "url".toList then some tokenUrl
  else if name = "http-version".toList then some tokenHttpVersion
  else if name = "status".toList then some tokenStatus
  else if name = "req".toList then some tokenReq
  else if name = "res".toList then some tokenRes
  else if name = "referrer".toList then some tokenReferrer
  else if name = "user-agent".toList then some tokenUserAgent
  else if name = "response-time".toList then some tokenResponseTime
  else none

/-- The function `AddToken`, on the registry it assigns to. -/
def AddToken (reg : Registry) (token : Str) (f : TokenFunc) : Registry :=
  fun name => if name = token then some f else reg name

/-- The loop of the closure that `Compile` returns: `i` is the loop index,
`vals` the values appended so far. Calling a nil function and indexing `args`
past its end panic. -/
def formatLoop (args : List Str) (res : ResponseWriter) (req : Request) (ts : Time)
    (dur : Duration) : Nat → List (Option TokenFunc) → List Str → Option (List Str)
  | _, [], vals => some vals
  | i, f :: rest, vals =>
    match f, args[i]? with
    | some f, some arg =>
      let val := f res req ts dur arg
      let val := if val = [] then "-".toList else val
      formatLoop args res req ts dur (i + 1) rest (vals ++ [val])
    | _, _ => none

/-- The function `Compile`, with the registry `tokenFuncs` it reads at the time
of the call. -/
def Compile (tokenFuncs : Registry) (template : Str) : FormatFunc :=
  let template := match logFormats template with
    | some found => found
    | none => template
  let found := tokenRegexp.FindAllStringSubmatch template
  let format := tokenRegexp.ReplaceAllString template "%s".toList
  let funcs := found.foldl (fun funcs v => funcs ++ [tokenFuncs v.name]) []
  let args := found.foldl (fun args v => args ++ [v.arg]) []
  fun res req ts dur =>
    match formatLoop args res req ts dur 0 funcs [] with
    | some vals => some (format, vals)
    | none => none

/-! ## The request of `TestFormatter` -/

def testRequest : Request :=
  { Method := "GET".toList
    URL := some { Path := "/search".toList }
    Proto := "HTTP/1.1".toList
    Header := Header.Set (Header.Set (Header.Set [] "user-agent".toList "Mozilla/5.0".toList)
      "referer".toList "https://referrer.com/path?q=query".toList)
      "Authorization".toList "Basic dXNlcm5hbWU6c3VwZXItc2VjcmV0LXBhc3N3b3Jk".toList
    RemoteAddr := "10.0.0.148".toList
    basicAuth := some ("username".toList, "super-secret-password".toList) }

def testResponse : ResponseWriter :=
  ((NewResponseWriter { header := [], statusCodes := [], bodies := [] }).calls
    [.writeHeader 200, .setHeader "content-length".toList "1024".toList])

/-- The timestamp `2006-01-02T15:04:05Z`, a Monday. -/
def testTime : Time :=
  { year := 2006, month := 1, day := 2, hour := 15, minute := 4, second := 5,
    nanosecond := 0, weekday := 1, yday := 2, zoneName := "UTC".toList, zoneOffset := 0 }

/-- The duration `136us`, in nanoseconds. -/
def testDuration : Duration := 136000

/-- The replacement of an empty value by a dash, as the closure of `Compile`
does it after each extractor call. -/
def orDash (val : Str) : Str :=
  if val = [] then "-".toList else val

/-- The template `Compile` scans: the alias text for an alias name, the
argument itself otherwise. -/
def resolvedTemplate (template : Str) : Str :=
  match logFormats template with
  | some found => found
  | none => template

/-- The token references of a template, in source order. -/
def tokenReferences (template : Str) : List Submatch :=
  tokenRegexp.FindAllStringSubmatch (resolvedTemplate template)

/-- The number of places where a text holds the two characters `%s`. -/
def countMarkers : Str → Nat
  | [] => 0
  | c :: rest => (if c = '%' ∧ rest.head? = some 's' then 1 else 0) + countMarkers rest

/-- The literal text of a template: what is left when every token reference is
taken out. -/
def literalText (template : Str) : Str :=
  tokenRegexp.ReplaceAllString (resolvedTemplate template) []

/-- The elapsed time in milliseconds as the specification words it: the whole
microseconds of the duration divided by 1000, with `n` fractional digits. -/
def elapsedMillisecondsSpec (dur : Duration) (n : Nat) : Str :=
  FormatFloat ((Float64.ofInt dur.Microseconds).divNat 1000) n

/-- The common log format of a timestamp as the specification words it: two-digit
day, three-letter month, four-digit year, then hour, minute and second of the
24-hour clock with two digits each, and ` +0000`. -/
def commonLogFormatSpec (ts : Time) : Str :=
  appendInt ts.day 2 ++ ['/'] ++ (monthString ts.month).take 3 ++ ['/'] ++ appendInt ts.year 4
    ++ [':'] ++ appendInt ts.hour 2 ++ [':'] ++ appendInt ts.minute 2 ++ [':']
    ++ appendInt ts.second 2 ++ " +0000".toList

/-- The number of bytes passed to `Write` in a sequence of calls. -/
def writtenBytes : List Call → Nat
  | [] => 0
  | .write b :: rest => b.length + writtenBytes rest
  | _ :: rest => writtenBytes rest

/-- The extractor a registry binds to a name; the nil function value is stood
for by the extractor that returns the empty string (it is never called). -/
def boundFunc (reg : Registry) (name : Str) : TokenFunc :=
  (reg name).getD (fun _ _ _ _ _ => [])

/-- The six alias names of `logFormats`. -/
def aliasNames : List Str :=
  ["combined".toList, "common".toList, "dev".toList, "short".toList, "tiny".toList,
   "default".toList]

/-- A coloured text without its colour prefix (five characters, `ESC[3Xm`) and
its reset suffix (four characters, `ESC[0m`). -/
def stripColor (out : Str) : Str :=
  (out.drop 5).take (out.length - 9)

/-- A bracketed argument at the head of the text `l`, in the words of the
specification: an opening bracket, a non-empty run `a` of characters other than
the closing bracket, and a closing bracket; `tail` is the text after it. -/
def IsBracketGroup (a l tail : Str) : Prop :=
  a ≠ [] ∧ (∀ c ∈ a, c ≠ ']') ∧ l = '[' :: a ++ ']' :: tail

/-- A token reference at the head of the text `l`, in the words of the
specification: a colon, a maximal run of two or more name characters, and
immediately after it the bracketed argument when there is one; `rest` is the text
after the reference. -/
def IsTokenReference (v : Submatch) (l rest : Str) : Prop :=
  l = v.text ++ rest ∧ 2 ≤ v.name.length ∧ (∀ c ∈ v.name, isNameChar c = true)
  ∧ ((v.text = ':' :: v.name ++ '[' :: v.arg ++ [']'] ∧ v.arg ≠ [] ∧ ∀ c ∈ v.arg, c ≠ ']')
    ∨ (v.text = ':' :: v.name ∧ v.arg = []
        ∧ (∀ c ∈ rest.head?, isNameChar c = false)
        ∧ ¬ ∃ a tail, IsBracketGroup a rest tail))

/-- The skeleton and the references of a template, in the words of the
specification: scanning left to right, a token reference is replaced in place by
`%s` and the scan goes on after it; a character at which no token reference
starts is kept. -/
inductive IsSkeleton : Str → Str → List Submatch → Prop where
  | done : IsSkeleton [] [] []
  | reference (v : Submatch) (l rest sk : Str) (refs : List Submatch) :
      IsTokenReference v l rest → IsSkeleton rest sk refs →
      IsSkeleton l ('%' :: 's' :: sk) (v :: refs)
  | literal (c : Char) (rest sk : Str) (refs : List Submatch) :
      (¬ ∃ v tail, IsTokenReference v (c :: rest) tail) → IsSkeleton rest sk refs →
      IsSkeleton (c :: rest) (c :: sk) refs

/-- A text with a colon followed by two name characters somewhere in it. -/
def HasTokenStart (l : Str) : Prop :=
  ∃ (pre post : Str) (c1 c2 : Char),
    l = pre ++ ':' :: c1 :: c2 :: post ∧ isNameChar c1 = true ∧ isNameChar c2 = true

/-- The package at run time: the variable `tokenFuncs`, and the formatters that
earlier calls of `Compile` returned and that their callers hold, oldest first. -/
structure Package where
  tokenFuncs : Registry
  formatters : List FormatFunc

/-- A call into the package. -/
inductive PackageCall where
  | compile (template : Str)
  | addToken (token : Str) (f : TokenFunc)

/-- The effect of a call: `Compile` reads `tokenFuncs` and hands out a formatter,
`AddToken` assigns to `tokenFuncs`. -/
def Package.call (p : Package) : PackageCall → Package
  | .compile template =>
    { p with formatters := p.formatters ++ [Compile p.tokenFuncs template] }
  | .addToken token f => { p with tokenFuncs := AddToken p.tokenFuncs token f }

/-! ## Lemmas on the closure of `Compile` -/

theorem foldl_append_singleton {α β : Type} (g : α → β) (l : List α) (acc : List β) :
    l.foldl (fun acc v => acc ++ [g v]) acc = acc ++ l.map g := by
  induction l generalizing acc with
  | nil => simp
  | cons a l ih => simp [ih]

/-- The loop over registered extractors appends one dashed value per reference. -/
theorem formatLoop_registered (res : ResponseWriter) (req : Request) (ts : Time)
    (dur : Duration) (pre : List Str) (fs : List (TokenFunc × Str)) (vals : List Str) :
    formatLoop (pre ++ fs.map (·.2)) res req ts dur pre.length (fs.map (fun p => some p.1)) vals
      = some (vals ++ fs.map (fun p => orDash (p.1 res req ts dur p.2))) := by
  induction fs generalizing pre vals with
  | nil => simp [formatLoop]
  | cons p fs ih =>
    have h := ih (pre ++ [p.2]) (vals ++ [orDash (p.1 res req ts dur p.2)])
    simp only [List.append_assoc, List.singleton_append, List.length_append,
      List.length_singleton] at h
    simp only [List.map_cons, formatLoop]
    have hget : (pre ++ p.2 :: List.map (·.2) fs)[pre.length]? = some p.2 := by
      rw [List.getElem?_append_right (Nat.le_refl _)]
      simp
    rw [hget]
    simpa [orDash] using h

theorem Compile_eq_loop (reg : Registry) (template : Str) (res : ResponseWriter)
    (req : Request) (ts : Time) (dur : Duration) :
    Compile reg template res req ts dur =
      (formatLoop ((tokenReferences template).map (·.arg)) res req ts dur 0
        ((tokenReferences template).map (fun v => reg v.name)) []).map
        (fun vals =>
          (tokenRegexp.ReplaceAllString (resolvedTemplate template) "%s".toList, vals)) := by
  unfold Compile tokenReferences resolvedTemplate
  simp only [foldl_append_singleton, List.nil_append]
  cases logFormats template <;>
    (simp only []; cases formatLoop _ res req ts dur 0 _ [] <;> rfl)

theorem Compile_registered (reg : Registry) (template : Str)
    (h : ∀ v ∈ tokenReferences template, (reg v.name).isSome = true)
    (res : ResponseWriter) (req : Request) (ts : Time) (dur : Duration) :
    Compile reg template res req ts dur =
      some (tokenRegexp.ReplaceAllString (resolvedTemplate template) "%s".toList,
        (tokenReferences template).map
          (fun v => orDash (boundFunc reg v.name res req ts dur v.arg))) := by
  rw [Compile_eq_loop]
  have h1 : (tokenReferences template).map (fun v => reg v.name)
      = ((tokenReferences template).map (fun v => (boundFunc reg v.name, v.arg))).map
          (fun p => some p.1) := by
    rw [List.map_map]
    apply List.map_congr_left
    intro v hv
    have := h v hv
    cases hr : reg v.name with
    | none => rw [hr] at this; cases this
    | some f => simp [boundFunc, hr]
  have h2 : (tokenReferences template).map (·.arg)
      = [] ++ ((tokenReferences template).map (fun v => (boundFunc reg v.name, v.arg))).map
          (·.2) := by
    simp [List.map_map, Function.comp_def]
  rw [h1, h2]
  have := formatLoop_registered res req ts dur []
    ((tokenReferences template).map (fun v => (boundFunc reg v.name, v.arg))) []
  simp only [List.length_nil] at this
  rw [this]
  simp [List.map_map, Function.comp_def]

/-- A nil function value anywhere in the list makes the loop panic. -/
theorem formatLoop_nil (args : List Str) (res : ResponseWriter) (req : Request) (ts : Time)
    (dur : Duration) (funcs : List (Option TokenFunc)) (h : none ∈ funcs) (i : Nat)
    (vals : List Str) : formatLoop args res req ts dur i funcs vals = none := by
  induction funcs generalizing i vals with
  | nil => cases h
  | cons f rest ih =>
    cases f with
    | none => simp [formatLoop]
    | some f =>
      have hr : none ∈ rest := by
        cases h with
        | tail _ h => exact h
      cases ha : args[i]? with
      | none => simp [formatLoop, ha]
      | some a => simp [formatLoop, ha, ih hr]

theorem Compile_unregistered (reg : Registry) (template : Str)
    (h : ∃ v ∈ tokenReferences template, reg v.name = none)
    (res : ResponseWriter) (req : Request) (ts : Time) (dur : Duration) :
    Compile reg template res req ts dur = none := by
  rw [Compile_eq_loop, formatLoop_nil]
  · rfl
  · obtain ⟨v, hv, hn⟩ := h
    exact List.mem_map.mpr ⟨v, hv, hn⟩

theorem combined_references :
    tokenReferences "combined".toList =
      [⟨":remote-addr".toList, "remote-addr".toList, []⟩,
       ⟨":remote-user".toList, "remote-user".toList, []⟩,
       ⟨":date[clf]".toList, "date".toList, "clf".toList⟩,
       ⟨":method".toList, "method".toList, []⟩,
       ⟨":url".toList, "url".toList, []⟩,
       ⟨":http-version".toList, "http-version".toList, []⟩,
       ⟨":status".toList, "status".toList, []⟩,
       ⟨":res[content-length]".toList, "res".toList, "content-length".toList⟩,
       ⟨":referrer".toList, "referrer".toList, []⟩,
       ⟨":user-agent".toList, "user-agent".toList, []⟩] := by
  decide

theorem combined_skeleton :
    tokenRegexp.ReplaceAllString (resolvedTemplate "combined".toList) "%s".toList
      = "%s - %s [%s] \"%s %s HTTP/%s\" %s %s \"%s\" \"%s\"".toList := by
  decide

/-! ## Lemmas on the token pattern -/

theorem matchArg_ne_nil (l a : Str) (h : matchArg l = some a) : a ≠ [] := by
  unfold matchArg at h
  split at h
  · rename_i cs
    simp only at h
    split at h
    · split at h
      · cases h
      · rename_i hne
        cases h
        intro hnil
        simp [hnil] at hne
    · cases h
  · cases h

/-- The shape of a match: a reference without a bracket group has the empty
argument, a reference with one has a non-empty argument. -/
theorem matchToken_shape (l : Str) (v : Submatch) (h : matchToken l = some v) :
    (v.arg = [] ∧ v.text = ':' :: v.name)
      ∨ (v.arg ≠ [] ∧ v.text = ':' :: v.name ++ '[' :: v.arg ++ [']']) := by
  unfold matchToken at h
  split at h
  · rename_i cs
    simp only at h
    split at h
    · split at h
      · rename_i a ha
        cases h
        exact Or.inr ⟨matchArg_ne_nil _ _ ha, rfl⟩
      · cases h
        exact Or.inl ⟨rfl, rfl⟩
    · cases h
  · cases h

theorem findAllFrom_mem (skip : Nat) (l : Str) (v : Submatch) (h : v ∈ findAllFrom skip l) :
    ∃ l1, matchToken l1 = some v := by
  induction l generalizing skip with
  | nil => simp [findAllFrom] at h
  | cons c cs ih =>
    cases skip with
    | succ k =>
      simp only [findAllFrom] at h
      exact ih k h
    | zero =>
      simp only [findAllFrom] at h
      split at h
      · rename_i m hm
        cases h with
        | head => exact ⟨_, hm⟩
        | tail _ h => exact ih _ h
      · exact ih _ h

theorem tokenReferences_shape (template : Str) (v : Submatch)
    (h : v ∈ tokenReferences template) :
    (v.arg = [] ∧ v.text = ':' :: v.name)
      ∨ (v.arg ≠ [] ∧ v.text = ':' :: v.name ++ '[' :: v.arg ++ [']']) := by
  obtain ⟨l1, hl⟩ := findAllFrom_mem 0 _ v h
  exact matchToken_shape l1 v hl

theorem orDash_ne_nil (s : Str) : orDash s ≠ [] := by
  unfold orDash
  split
  · decide
  · assumption

/-- With no percent sign in the literal text, every percent sign of the skeleton
starts a marker, one per match. -/
theorem replaceAllFrom_markers (skip : Nat) (l : Str)
    (h : '%' ∉ replaceAllFrom [] skip l) :
    countMarkers (replaceAllFrom ['%', 's'] skip l) = (findAllFrom skip l).length
      ∧ (replaceAllFrom ['%', 's'] skip l).count '%' = (findAllFrom skip l).length := by
  induction l generalizing skip with
  | nil => simp [replaceAllFrom, findAllFrom, countMarkers]
  | cons c cs ih =>
    cases skip with
    | succ k =>
      simp only [replaceAllFrom, findAllFrom] at h ⊢
      exact ih k h
    | zero =>
      simp only [replaceAllFrom, findAllFrom] at h ⊢
      split at h
      · rename_i m hm
        simp only [List.nil_append] at h
        obtain ⟨h1, h2⟩ := ih _ h
        have hcons : ['%', 's'] ++ replaceAllFrom ['%', 's'] (m.text.length - 1) cs
            = '%' :: 's' :: replaceAllFrom ['%', 's'] (m.text.length - 1) cs := rfl
        rw [hcons]
        refine ⟨?_, ?_⟩
        · simp only [countMarkers, List.head?_cons, List.length_cons, h1]
          simp
          omega
        · rw [List.count_cons, List.count_cons, h2]
          simp
      · rename_i hm
        have hc : c ≠ '%' := by
          intro hc
          exact h (by simp [hc])
        have h' : '%' ∉ replaceAllFrom [] 0 cs := by
          intro hin
          exact h (List.mem_cons_of_mem _ hin)
        obtain ⟨h1, h2⟩ := ih _ h'
        refine ⟨?_, ?_⟩
        · simp [countMarkers, hc, h1]
        · rw [List.count_cons, h2]
          simp [hc]

/-! ## Lemmas on the `float64` model -/

theorem floorLog2Fuel_spec (fuel n : Nat) (hn : 0 < n) (hf : n ≤ fuel) :
    2 ^ floorLog2Fuel fuel n ≤ n ∧ n < 2 ^ (floorLog2Fuel fuel n + 1) := by
  induction fuel generalizing n with
  | zero => omega
  | succ fuel ih =>
    unfold floorLog2Fuel
    split
    · constructor <;> simp <;> omega
    · obtain ⟨h1, h2⟩ := ih (n / 2) (by omega) (by omega)
      rw [pow_succ] at h2
      constructor
      · rw [pow_succ]
        omega
      · rw [pow_succ, pow_succ]
        omega

/-- The fuel of `floorLog2` is enough: the result is the binary logarithm,
rounded down. -/
theorem floorLog2_spec (n : Nat) (hn : 0 < n) :
    2 ^ floorLog2 n ≤ n ∧ n < 2 ^ (floorLog2 n + 1) :=
  floorLog2Fuel_spec n n hn (Nat.le_refl n)

/-! ## Lemmas on the response observer -/

theorem wrapInt_of_range (x : Int) (h0 : 0 ≤ x) (h1 : x < 2 ^ 63) : wrapInt x = x := by
  unfold wrapInt
  omega

theorem calls_append (w : responseWriter) (cs ds : List Call) :
    w.calls (cs ++ ds) = (w.calls cs).calls ds := by
  simp [responseWriter.calls, List.foldl_append]

theorem calls_cons (w : responseWriter) (c : Call) (cs : List Call) :
    w.calls (c :: cs) = (w.call c).calls cs := rfl

/-- Calls other than `Write` and `WriteHeader` leave the status code alone. -/
theorem statusCode_calls_other (w : responseWriter) (cs : List Call)
    (h : ∀ c ∈ cs, c.isWrite = false ∧ c.isWriteHeader = false) :
    (w.calls cs).statusCode = w.statusCode := by
  induction cs generalizing w with
  | nil => rfl
  | cons c cs ih =>
    rw [calls_cons, ih _ (fun x hx => h x (List.mem_cons_of_mem _ hx))]
    have hc := h c (List.mem_cons_self _ _)
    cases c <;> simp_all [responseWriter.call, responseWriter.Flush, Call.isWrite,
      Call.isWriteHeader]

/-- Once the status code is set and not zero, calls other than `WriteHeader` keep it. -/
theorem statusCode_calls_keep (w : responseWriter) (cs : List Call)
    (hw : w.statusCode ≠ 0) (h : ∀ c ∈ cs, c.isWriteHeader = false) :
    (w.calls cs).statusCode = w.statusCode := by
  induction cs generalizing w with
  | nil => rfl
  | cons c cs ih =>
    have hc := h c (List.mem_cons_self _ _)
    have hstep : (w.call c).statusCode = w.statusCode := by
      cases c <;> simp_all [responseWriter.call, responseWriter.Flush, responseWriter.Write,
        Call.isWriteHeader]
    rw [calls_cons, ih _ (by rw [hstep]; exact hw) (fun x hx => h x (List.mem_cons_of_mem _ hx)),
      hstep]

/-- The byte counter is the running total while the total fits a Go `int`. -/
theorem contentLength_calls (w : responseWriter) (cs : List Call)
    (h0 : 0 ≤ w.contentLength) (h1 : w.contentLength + writtenBytes cs < 2 ^ 63) :
    (w.calls cs).contentLength = w.contentLength + writtenBytes cs := by
  induction cs generalizing w with
  | nil => simp [responseWriter.calls, writtenBytes]
  | cons c cs ih =>
    rw [calls_cons]
    cases c with
    | write b =>
      simp only [writtenBytes, Nat.cast_add] at h1 ⊢
      have hb : (0 : Int) ≤ (b.length : Int) := Int.ofNat_nonneg _
      have hr : (0 : Int) ≤ (writtenBytes cs : Int) := Int.ofNat_nonneg _
      have hstep : (w.call (.write b)).contentLength = w.contentLength + b.length := by
        simp only [responseWriter.call, responseWriter.Write]
        exact wrapInt_of_range _ (by omega) (by omega)
      rw [ih _ (by rw [hstep]; omega) (by rw [hstep]; omega), hstep]
      omega
    | writeHeader c => exact ih _ h0 h1
    | setHeader k v => exact ih _ h0 h1
    | flush => exact ih _ h0 h1

/-! ## Lemmas on decimal digits -/

theorem digitChar_isDigit (n : Nat) : (Nat.digitChar (n % 10)).isDigit = true := by
  have h : n % 10 < 10 := Nat.mod_lt _ (by decide)
  interval_cases n % 10 <;> decide

theorem toDigitsCore_isDigit (fuel n : Nat) (acc : List Char)
    (hacc : ∀ c ∈ acc, c.isDigit = true) :
    ∀ c ∈ Nat.toDigitsCore 10 fuel n acc, c.isDigit = true := by
  induction fuel generalizing n acc with
  | zero => simpa [Nat.toDigitsCore] using hacc
  | succ fuel ih =>
    have hcons : ∀ c ∈ Nat.digitChar (n % 10) :: acc, c.isDigit = true := by
      intro c hc
      cases hc with
      | head => exact digitChar_isDigit n
      | tail _ hc => exact hacc c hc
    unfold Nat.toDigitsCore
    simp only
    split
    · exact hcons
    · exact ih _ _ hcons

/-- The decimal numeral of a natural number holds digits only. -/
theorem toDigits_isDigit (n : Nat) : ∀ c ∈ Nat.toDigits 10 n, c.isDigit = true :=
  toDigitsCore_isDigit _ _ [] (by simp)

/-- Calls of `Write` leave the header map of the wrapped writer alone. -/
theorem header_calls_write (w : responseWriter) (bufs : List (List UInt8)) :
    (w.calls (bufs.map Call.write)).ResponseWriter.header = w.ResponseWriter.header := by
  induction bufs generalizing w with
  | nil => rfl
  | cons b bufs ih =>
    rw [List.map_cons, calls_cons, ih]
    rfl

theorem writtenBytes_map_write (bufs : List (List UInt8)) :
    writtenBytes (bufs.map Call.write) = (bufs.map List.length).sum := by
  induction bufs with
  | nil => rfl
  | cons b bufs ih => simp [writtenBytes, ih]

/-- Go `strings.Join` puts the separator between consecutive values, in order. -/
theorem stringsJoin_eq_intercalate (vals : List Str) (sep : Str) :
    stringsJoin vals sep = List.intercalate sep vals := by
  induction vals with
  | nil => rfl
  | cons a rest ih =>
    cases rest with
    | nil => simp [stringsJoin, List.intercalate]
    | cons b rest =>
      simp only [stringsJoin, ih]
      simp [List.intercalate, List.intersperse]

/-- The first `Write` on an observer whose status code is unset sets it to 200. -/
theorem statusCode_first_write (w0 : HttpResponseWriter) (pre : List Call) (b : List UInt8)
    (hpre : ∀ x ∈ pre, x.isWrite = false ∧ x.isWriteHeader = false) :
    ((NewResponseWriter w0).calls (pre ++ [Call.write b])).statusCode = 200 := by
  have h0 : ((NewResponseWriter w0).calls pre).statusCode = 0 :=
    statusCode_calls_other _ pre hpre
  rw [calls_append]
  show (((NewResponseWriter w0).calls pre).Write b).statusCode = 200
  simp [responseWriter.Write, h0]

/-- Without a content-length header that parses, `ContentLength` is the counter. -/
theorem ContentLength_of_absent (w : responseWriter)
    (h : w.ResponseWriter.header.index "Content-Length".toList = none) :
    w.ContentLength = w.contentLength := by
  have hcanon : CanonicalHeaderKey "content-length".toList = "Content-Length".toList := by
    decide
  have hget : w.ResponseWriter.header.Get "content-length".toList = [] := by
    simp only [Header.Get, hcanon, h]
  have hat : Atoi ([] : Str) = none := by decide
  simp only [responseWriter.ContentLength, hget, hat]

/-- The formatter of `Compile` depends on its argument through the template that
is scanned. -/
theorem Compile_congr_resolved (reg : Registry) (t t1 : Str)
    (h : resolvedTemplate t = resolvedTemplate t1) (res : ResponseWriter) (req : Request)
    (ts : Time) (dur : Duration) :
    Compile reg t res req ts dur = Compile reg t1 res req ts dur := by
  rw [Compile_eq_loop, Compile_eq_loop]
  unfold tokenReferences
  rw [h]

theorem resolvedTemplate_of_none (t : Str) (h : logFormats t = none) :
    resolvedTemplate t = t := by
  simp only [resolvedTemplate, h]

theorem logFormats_of_not_alias (t : Str) (h : ∀ n ∈ aliasNames, t ≠ n) :
    logFormats t = none := by
  unfold logFormats
  rw [if_neg (h _ (by decide)), if_neg (h _ (by decide)), if_neg (h _ (by decide)),
    if_neg (h _ (by decide)), if_neg (h _ (by decide)), if_neg (h _ (by decide))]

theorem stripColor_wrapped (p v s : Str) (hp : p.length = 5) (hs : s.length = 4) :
    stripColor (p ++ v ++ s) = v := by
  unfold stripColor
  rw [List.append_assoc, List.drop_left' hp]
  have hlen : (p ++ (v ++ s)).length - 9 = v.length := by
    simp only [List.length_append, hp, hs]
    omega
  rw [hlen, List.take_left' rfl]

/-- The two shapes of `colorStatus`: the text itself, or the text between a
colour prefix and the reset suffix. -/
theorem colorStatus_shape (s : Int) (v : Str) :
    colorStatus s v = v
      ∨ ∃ X ∈ ['1', '2', '3', '6'],
          colorStatus s v = "\x1b[3".toList ++ [X] ++ ['m'] ++ v ++ "\x1b[0m".toList := by
  unfold colorStatus
  split
  · exact Or.inr ⟨'1', by decide, rfl⟩
  · split
    · exact Or.inr ⟨'3', by decide, rfl⟩
    · split
      · exact Or.inr ⟨'6', by decide, rfl⟩
      · split
        · exact Or.inr ⟨'2', by decide, rfl⟩
        · exact Or.inl rfl

/-! ## The token pattern against the grammar of the specification -/

/-- The longest run: the run, then the text after it, whose first character is
not of the run. -/
theorem span_spec (p : Char → Bool) (l : Str) :
    l = l.takeWhile p ++ l.dropWhile p ∧ (∀ c ∈ l.takeWhile p, p c = true)
      ∧ (∀ c ∈ (l.dropWhile p).head?, p c = false) := by
  refine ⟨(List.takeWhile_append_dropWhile p l).symm, fun c hc => List.mem_takeWhile_imp hc, ?_⟩
  induction l with
  | nil => simp
  | cons a l ih =>
    by_cases ha : p a = true
    · rw [List.dropWhile_cons_of_pos ha]
      exact ih
    · rw [List.dropWhile_cons_of_neg ha]
      intro c hc
      simp only [List.head?_cons, Option.mem_def, Option.some.injEq] at hc
      subst hc
      simpa using ha

theorem span_unique (p : Char → Bool) (a b : Str) (ha : ∀ c ∈ a, p c = true)
    (hb : ∀ c ∈ b.head?, p c = false) :
    (a ++ b).takeWhile p = a ∧ (a ++ b).dropWhile p = b := by
  have hb1 : b.takeWhile p = [] ∧ b.dropWhile p = b := by
    cases b with
    | nil => simp
    | cons c b =>
      have hc : ¬ p c = true := by
        have := hb c (by simp)
        simp [this]
      exact ⟨List.takeWhile_cons_of_neg hc, List.dropWhile_cons_of_neg hc⟩
  rw [List.takeWhile_append_of_pos ha, List.dropWhile_append_of_pos ha, hb1.1, hb1.2]
  simp

theorem matchArg_iff (l a : Str) :
    matchArg l = some a ↔ ∃ tail, IsBracketGroup a l tail := by
  constructor
  · intro h
    unfold matchArg at h
    split at h
    · rename_i cs
      simp only at h
      obtain ⟨hcs, hall, _⟩ := span_spec (· != ']') cs
      split at h
      · rename_i tail hdrop
        split at h
        · cases h
        · rename_i hne
          cases h
          refine ⟨tail, ?_, ?_, ?_⟩
          · intro hnil
            simp [hnil] at hne
          · intro c hc
            simpa using hall c hc
          · rw [hdrop] at hcs
            exact congrArg (List.cons '[') hcs
      · cases h
    · cases h
  · rintro ⟨tail, hne, hall, rfl⟩
    have hsp := span_unique (· != ']') a (']' :: tail)
      (fun c hc => by simpa using hall c hc) (by simp)
    have hemp : a.isEmpty = false := by
      cases a with
      | nil => exact absurd rfl hne
      | cons c a => rfl
    show matchArg ('[' :: (a ++ ']' :: tail)) = some a
    simp only [matchArg, hsp.1, hsp.2, hemp]
    rfl

theorem matchArg_none_iff (l : Str) :
    matchArg l = none ↔ ¬ ∃ a tail, IsBracketGroup a l tail := by
  constructor
  · intro h ⟨a, tail, hg⟩
    have := (matchArg_iff l a).mpr ⟨tail, hg⟩
    rw [h] at this
    cases this
  · intro h
    cases hm : matchArg l with
    | none => rfl
    | some a =>
      obtain ⟨tail, hg⟩ := (matchArg_iff l a).mp hm
      exact absurd ⟨a, tail, hg⟩ h

/-- Soundness of the pattern: a match is a token reference of the grammar, and
the text after it is what is left of the input. -/
theorem matchToken_sound (l : Str) (v : Submatch) (h : matchToken l = some v) :
    IsTokenReference v l (l.drop v.text.length) := by
  unfold matchToken at h
  split at h
  · rename_i cs
    simp only at h
    obtain ⟨hcs, hall, hhead⟩ := span_spec isNameChar cs
    split at h
    · rename_i hlen
      split at h
      · rename_i a ha
        cases h
        obtain ⟨tail, hne, hnb, htail⟩ := (matchArg_iff _ a).mp ha
        have hl : ':' :: cs
            = (':' :: List.takeWhile isNameChar cs ++ '[' :: a ++ [']']) ++ tail := by
          have h1 : ':' :: cs = ':' :: (List.takeWhile isNameChar cs
              ++ List.dropWhile isNameChar cs) := congrArg (List.cons ':') hcs
          rw [htail] at h1
          exact h1.trans (by simp)
        have hdrop : (':' :: cs).drop
            (':' :: List.takeWhile isNameChar cs ++ '[' :: a ++ [']']).length = tail := by
          rw [hl]
          exact List.drop_left' rfl
        refine ⟨?_, hlen, hall, Or.inl ⟨rfl, hne, hnb⟩⟩
        simp only [hdrop]
        exact hl
      · rename_i hna
        cases h
        have hl : ':' :: cs
            = (':' :: List.takeWhile isNameChar cs) ++ List.dropWhile isNameChar cs := by
          rw [List.cons_append, List.takeWhile_append_dropWhile]
        have hdrop : (':' :: cs).drop (':' :: List.takeWhile isNameChar cs).length
            = List.dropWhile isNameChar cs := by
          rw [hl]
          exact List.drop_left' rfl
        refine ⟨?_, hlen, hall, Or.inr ⟨rfl, rfl, ?_, ?_⟩⟩
        · simp only [hdrop]
          exact hl
        · simp only [hdrop]
          exact hhead
        · simp only [hdrop]
          exact (matchArg_none_iff _).mp hna
    · cases h
  · cases h

/-- Completeness of the pattern: a token reference of the grammar at the head of
the text is the match. -/
theorem matchToken_complete (l rest : Str) (v : Submatch) (h : IsTokenReference v l rest) :
    matchToken l = some v := by
  obtain ⟨hl, hlen, hall, hshape⟩ := h
  obtain ⟨text, name, arg⟩ := v
  simp only at hl hlen hall hshape
  rcases hshape with ⟨ht, hne, hnb⟩ | ⟨ht, ha, hhead, hng⟩
  · subst ht
    have hl1 : l = ':' :: (name ++ ('[' :: arg ++ ']' :: rest)) := by
      rw [hl]
      simp
    have hsp := span_unique isNameChar name ('[' :: arg ++ ']' :: rest) hall
      (by simp [isNameChar])
    have harg : matchArg ('[' :: arg ++ ']' :: rest) = some arg :=
      (matchArg_iff _ _).mpr ⟨rest, hne, hnb, rfl⟩
    rw [hl1]
    unfold matchToken
    simp only [hsp.1, hsp.2, harg, if_pos hlen]
  · subst ht
    subst ha
    have hl1 : l = ':' :: (name ++ rest) := hl
    have hsp := span_unique isNameChar name rest hall hhead
    have harg : matchArg rest = none := (matchArg_none_iff _).mpr hng
    rw [hl1]
    unfold matchToken
    simp only [hsp.1, hsp.2, harg, if_pos hlen]

theorem findAllFrom_skip (skip : Nat) (l : Str) :
    findAllFrom skip l = findAllFrom 0 (l.drop skip) := by
  induction l generalizing skip with
  | nil => simp [findAllFrom]
  | cons c cs ih =>
    cases skip with
    | zero => rfl
    | succ k =>
      simp only [findAllFrom, List.drop_succ_cons]
      exact ih k

theorem replaceAllFrom_skip (repl : Str) (skip : Nat) (l : Str) :
    replaceAllFrom repl skip l = replaceAllFrom repl 0 (l.drop skip) := by
  induction l generalizing skip with
  | nil => simp [replaceAllFrom]
  | cons c cs ih =>
    cases skip with
    | zero => rfl
    | succ k =>
      simp only [replaceAllFrom, List.drop_succ_cons]
      exact ih k

theorem matchToken_text_pos (l : Str) (v : Submatch) (h : matchToken l = some v) :
    1 ≤ v.text.length := by
  rcases matchToken_shape l v h with ⟨_, ht⟩ | ⟨_, ht⟩ <;> rw [ht] <;> simp

/-- After a match the scan goes on in the text after the match. -/
theorem findAllFrom_match (c : Char) (cs : Str) (v : Submatch)
    (h : matchToken (c :: cs) = some v) :
    findAllFrom 0 (c :: cs) = v :: findAllFrom 0 ((c :: cs).drop v.text.length) := by
  have hpos := matchToken_text_pos _ v h
  obtain ⟨k, hk⟩ : ∃ k, v.text.length = k + 1 := ⟨v.text.length - 1, by omega⟩
  simp only [findAllFrom, h]
  rw [findAllFrom_skip, hk]
  rfl

theorem replaceAllFrom_match (repl : Str) (c : Char) (cs : Str) (v : Submatch)
    (h : matchToken (c :: cs) = some v) :
    replaceAllFrom repl 0 (c :: cs)
      = repl ++ replaceAllFrom repl 0 ((c :: cs).drop v.text.length) := by
  have hpos := matchToken_text_pos _ v h
  obtain ⟨k, hk⟩ : ∃ k, v.text.length = k + 1 := ⟨v.text.length - 1, by omega⟩
  simp only [replaceAllFrom, h]
  rw [replaceAllFrom_skip, hk]
  rfl

theorem findAllFrom_literal (c : Char) (cs : Str) (h : matchToken (c :: cs) = none) :
    findAllFrom 0 (c :: cs) = findAllFrom 0 cs := by
  simp only [findAllFrom, h]

theorem replaceAllFrom_literal (repl : Str) (c : Char) (cs : Str)
    (h : matchToken (c :: cs) = none) :
    replaceAllFrom repl 0 (c :: cs) = c :: replaceAllFrom repl 0 cs := by
  simp only [replaceAllFrom, h]

theorem matchToken_none_iff (l : Str) :
    matchToken l = none ↔ ¬ ∃ v tail, IsTokenReference v l tail := by
  constructor
  · intro h ⟨v, tail, hv⟩
    rw [matchToken_complete l tail v hv] at h
    cases h
  · intro h
    cases hm : matchToken l with
    | none => rfl
    | some v => exact absurd ⟨v, _, matchToken_sound l v hm⟩ h

/-- The scan of the pattern yields a skeleton and references of the grammar. -/
theorem scan_isSkeleton (n : Nat) (l : Str) (hn : l.length ≤ n) :
    IsSkeleton l (replaceAllFrom ['%', 's'] 0 l) (findAllFrom 0 l) := by
  induction n generalizing l with
  | zero =>
    have : l = [] := List.eq_nil_of_length_eq_zero (by omega)
    subst this
    exact IsSkeleton.done
  | succ n ih =>
    cases l with
    | nil => exact IsSkeleton.done
    | cons c cs =>
      cases hm : matchToken (c :: cs) with
      | none =>
        rw [replaceAllFrom_literal _ _ _ hm, findAllFrom_literal _ _ hm]
        exact IsSkeleton.literal c cs _ _ ((matchToken_none_iff _).mp hm)
          (ih cs (by simp only [List.length_cons] at hn; omega))
      | some v =>
        rw [replaceAllFrom_match _ _ _ _ hm, findAllFrom_match _ _ _ hm]
        have hpos := matchToken_text_pos _ v hm
        refine IsSkeleton.reference v (c :: cs) _ _ _ (matchToken_sound _ v hm) (ih _ ?_)
        simp only [List.length_drop, List.length_cons] at hn ⊢
        omega

/-- The grammar pins the skeleton and the references down. -/
theorem isSkeleton_unique (l sk : Str) (refs : List Submatch) (h : IsSkeleton l sk refs) :
    sk = replaceAllFrom ['%', 's'] 0 l ∧ refs = findAllFrom 0 l := by
  induction h with
  | done => exact ⟨rfl, rfl⟩
  | reference v l rest sk refs hv _ ih =>
    have hm := matchToken_complete l rest v hv
    have hrest : l.drop v.text.length = rest := by
      rw [hv.1]
      exact List.drop_left' rfl
    cases l with
    | nil => simp [matchToken] at hm
    | cons c cs =>
      rw [replaceAllFrom_match _ _ _ _ hm, findAllFrom_match _ _ _ hm, hrest, ← ih.1, ← ih.2]
      exact ⟨rfl, rfl⟩
  | literal c rest sk refs hno _ ih =>
    have hm := (matchToken_none_iff _).mpr hno
    rw [replaceAllFrom_literal _ _ _ hm, findAllFrom_literal _ _ hm, ← ih.1, ← ih.2]
    exact ⟨rfl, rfl⟩

theorem matchToken_hasTokenStart (l : Str) (v : Submatch) (h : matchToken l = some v) :
    HasTokenStart l := by
  obtain ⟨hl, hlen, hall, hshape⟩ := matchToken_sound l v h
  have hname : ∃ c1 c2 post, v.name = c1 :: c2 :: post := by
    cases hv : v.name with
    | nil => rw [hv] at hlen; simp at hlen
    | cons c1 t =>
      cases t with
      | nil => rw [hv] at hlen; simp at hlen
      | cons c2 post => exact ⟨c1, c2, post, rfl⟩
  obtain ⟨c1, c2, post, hn⟩ := hname
  have h1 : isNameChar c1 = true := hall c1 (by rw [hn]; simp)
  have h2 : isNameChar c2 = true := hall c2 (by rw [hn]; simp)
  rcases hshape with ⟨ht, _, _⟩ | ⟨ht, _, _, _⟩
  · refine ⟨[], post ++ '[' :: v.arg ++ [']'] ++ l.drop v.text.length, c1, c2, ?_, h1, h2⟩
    rw [hl, ht, hn]
    simp
  · refine ⟨[], post ++ l.drop v.text.length, c1, c2, ?_, h1, h2⟩
    rw [hl, ht, hn]
    simp

/-- A text without a colon followed by two name characters holds no match: the
scan copies it and finds nothing. -/
theorem scan_without_token_start (l : Str) (h : ¬ HasTokenStart l) :
    replaceAllFrom ['%', 's'] 0 l = l ∧ findAllFrom 0 l = [] := by
  induction l with
  | nil => exact ⟨rfl, rfl⟩
  | cons c cs ih =>
    have hm : matchToken (c :: cs) = none := by
      cases hm : matchToken (c :: cs) with
      | none => rfl
      | some v => exact absurd (matchToken_hasTokenStart _ v hm) h
    have hcs : ¬ HasTokenStart cs := by
      rintro ⟨pre, post, c1, c2, hl, h1, h2⟩
      exact h ⟨c :: pre, post, c1, c2, by rw [hl]; rfl, h1, h2⟩
    rw [replaceAllFrom_literal _ _ _ hm, findAllFrom_literal _ _ hm, (ih hcs).1, (ih hcs).2]
    exact ⟨rfl, rfl⟩

/-- The scan of a bare reference `:name` followed by a text that starts with
neither a name character nor a bracketed argument. -/
theorem scan_bare_reference (name rest : Str) (hlen : 2 ≤ name.length)
    (hall : ∀ c ∈ name, isNameChar c = true) (hhead : ∀ c ∈ rest.head?, isNameChar c = false)
    (hng : ¬ ∃ a tail, IsBracketGroup a rest tail) (repl : Str) :
    findAllFrom 0 (':' :: name ++ rest)
        = { text := ':' :: name, name := name, arg := [] } :: findAllFrom 0 rest
    ∧ replaceAllFrom repl 0 (':' :: name ++ rest) = repl ++ replaceAllFrom repl 0 rest := by
  have hm : matchToken (':' :: (name ++ rest))
      = some { text := ':' :: name, name := name, arg := [] } :=
    matchToken_complete _ rest _ ⟨rfl, hlen, hall, Or.inr ⟨rfl, rfl, hhead, hng⟩⟩
  have hdrop : (':' :: (name ++ rest)).drop (':' :: name).length = rest := by
    show ((':' :: name) ++ rest).drop (':' :: name).length = rest
    exact List.drop_left' rfl
  have h1 := findAllFrom_match _ _ _ hm
  have h2 := replaceAllFrom_match repl _ _ _ hm
  simp only [hdrop] at h1 h2
  exact ⟨h1, h2⟩

theorem aliasNames_head : ∀ n ∈ aliasNames, n.head? ≠ some ':' := by
  decide

theorem logFormats_colon (t : Str) : logFormats (':' :: t) = none := by
  apply logFormats_of_not_alias
  intro n hn heq
  exact aliasNames_head n hn (by rw [← heq]; rfl)

theorem no_bracketGroup_nil : ¬ ∃ a tail, IsBracketGroup a ([] : Str) tail := by
  rintro ⟨a, tail, _, _, h⟩
  cases h

theorem no_bracketGroup_empty_brackets :
    ¬ ∃ a tail, IsBracketGroup a "[]".toList tail := by
  rintro ⟨a, tail, hne, hall, h⟩
  cases a with
  | nil => exact hne rfl
  | cons c a =>
    have h1 : ['[', ']'] = '[' :: c :: (a ++ ']' :: tail) := h
    have h2 : c = ']' := by
      injection h1 with _ h1
      injection h1 with h1 _
      exact h1.symm
    exact hall c (by simp) h2

/-- The references and the skeleton of the template `:name`. -/
theorem scan_single_reference (name : Str) (hlen : 2 ≤ name.length)
    (hall : ∀ c ∈ name, isNameChar c = true) :
    tokenReferences (':' :: name) = [{ text := ':' :: name, name := name, arg := [] }]
    ∧ tokenRegexp.ReplaceAllString (resolvedTemplate (':' :: name)) "%s".toList
        = "%s".toList := by
  have h := scan_bare_reference name [] hlen hall (by simp) no_bracketGroup_nil "%s".toList
  simp only [List.append_nil] at h
  unfold tokenReferences tokenRegexp.FindAllStringSubmatch tokenRegexp.ReplaceAllString
  rw [resolvedTemplate_of_none _ (logFormats_colon name), h.1, h.2]
  exact ⟨rfl, rfl⟩

/-- The formatter of the template `:name` under a registry that binds the name. -/
theorem Compile_single_reference (reg : Registry) (name : Str) (g : TokenFunc)
    (hlen : 2 ≤ name.length) (hall : ∀ c ∈ name, isNameChar c = true)
    (hg : reg name = some g) (res : ResponseWriter) (req : Request) (ts : Time)
    (dur : Duration) :
    Compile reg (':' :: name) res req ts dur
      = some ("%s".toList, [orDash (g res req ts dur [])]) := by
  obtain ⟨hrefs, hskel⟩ := scan_single_reference name hlen hall
  rw [Compile_registered reg _ (by rw [hrefs]; simp [hg]), hrefs, hskel]
  simp [boundFunc, hg]

theorem Compile_skeleton (reg : Registry) (template : Str) (res : ResponseWriter)
    (req : Request) (ts : Time) (dur : Duration) (format : Str) (vals : List Str)
    (h : Compile reg template res req ts dur = some (format, vals)) :
    format = tokenRegexp.ReplaceAllString (resolvedTemplate template) "%s".toList := by
  rw [Compile_eq_loop] at h
  cases hl : formatLoop ((tokenReferences template).map (·.arg)) res req ts dur 0
      ((tokenReferences template).map (fun v => reg v.name)) [] with
  | none => rw [hl] at h; cases h
  | some vs =>
    rw [hl] at h
    simp only [Option.map_some', Option.some.injEq, Prod.mk.injEq] at h
    exact h.1.symm

/-! ## The claims -/

/-- C1: on every response view, request, timestamp and duration the formatter of
`Compile("combined")` returns the skeleton `%s - %s [%s] "%s %s HTTP/%s" %s %s "%s" "%s"`
and exactly ten values, the outputs of the registered tokens remote-addr,
remote-user, date[clf], method, url, http-version, status, res[content-length],
referrer and user-agent in this order, an empty output replaced by a dash; on the
request, response, timestamp and duration of `TestFormatter` the values are the
ten strings the test expects. -/
theorem compile_combined_values :
    (∀ (res : ResponseWriter) (req : Request) (ts : Time) (dur : Duration),
      ∃ vals : List Str,
        Compile tokenFuncs "combined".toList res req ts dur
          = some ("%s - %s [%s] \"%s %s HTTP/%s\" %s %s \"%s\" \"%s\"".toList, vals)
        ∧ vals.length = 10
        ∧ vals.map some =
          [("remote-addr", ""), ("remote-user", ""), ("date", "clf"), ("method", ""),
           ("url", ""), ("http-version", ""), ("status", ""), ("res", "content-length"),
           ("referrer", ""), ("user-agent", "")].map
            (fun p => (tokenFuncs p.1.toList).map
              (fun f => orDash (f res req ts dur p.2.toList))))
    ∧ Compile tokenFuncs "combined".toList testResponse testRequest testTime testDuration
        = some ("%s - %s [%s] \"%s %s HTTP/%s\" %s %s \"%s\" \"%s\"".toList,
            ["10.0.0.148".toList, "username".toList, "10/Oct/2000:13:55:36 +0000".toList,
             "GET".toList, "/search".toList, "1.1".toList, "200".toList, "1024".toList,
             "https://referrer.com/path?q=query".toList, "Mozilla/5.0".toList]) := by
  constructor
  · intro res req ts dur
    have hreg : ∀ v ∈ tokenReferences "combined".toList, (tokenFuncs v.name).isSome = true := by
      rw [combined_references]
      decide
    refine ⟨(tokenReferences "combined".toList).map
      (fun v => orDash (boundFunc tokenFuncs v.name res req ts dur v.arg)), ?_, ?_, ?_⟩
    · rw [Compile_registered tokenFuncs _ hreg, combined_skeleton]
    · rw [combined_references]
      rfl
    · rw [combined_references]
      rfl
  · decide

/-- C2: for a template whose token references all name registered tokens, on
every request context the formatter of `Compile` returns a value list as long as
the list of token references, and its i-th value is the output of the extractor
registered for the i-th reference (left to right), applied to the context and to
the bracketed argument of that reference, with an empty output replaced by a
dash; a reference without a bracket group has the empty argument. -/
theorem compile_values_in_source_order (reg : Registry) (template : Str)
    (h : ∀ v ∈ tokenReferences template, (reg v.name).isSome = true)
    (res : ResponseWriter) (req : Request) (ts : Time) (dur : Duration) :
    ∃ (format : Str) (vals : List Str),
      Compile reg template res req ts dur = some (format, vals)
      ∧ vals.length = (tokenReferences template).length
      ∧ ∀ (i : Nat) (hi : i < (tokenReferences template).length),
          (∃ f : TokenFunc, reg ((tokenReferences template)[i]).name = some f
            ∧ vals[i]? = some (orDash (f res req ts dur ((tokenReferences template)[i]).arg)))
          ∧ (((tokenReferences template)[i]).text = ':' :: ((tokenReferences template)[i]).name
              → ((tokenReferences template)[i]).arg = []) := by
  refine ⟨_, _, Compile_registered reg template h res req ts dur, by simp, ?_⟩
  intro i hi
  have hmem : (tokenReferences template)[i] ∈ tokenReferences template :=
    List.getElem_mem hi
  constructor
  · have hs := h _ hmem
    cases hr : reg ((tokenReferences template)[i]).name with
    | none => rw [hr] at hs; cases hs
    | some f =>
      refine ⟨f, rfl, ?_⟩
      simp [List.getElem?_map, List.getElem?_eq_getElem hi, boundFunc, hr]
  · intro htext
    rcases tokenReferences_shape template _ hmem with ⟨ha, _⟩ | ⟨_, ht⟩
    · exact ha
    · rw [ht] at htext
      have hlen := congrArg List.length htext
      simp at hlen

theorem compile_values_in_source_order_witness :
    (∀ v ∈ tokenReferences ":method :date[clf] :nonsense".toList,
        ((AddToken tokenFuncs "nonsense".toList tokenUrl) v.name).isSome = true)
    ∧ ∃ (format : Str) (vals : List Str),
      Compile (AddToken tokenFuncs "nonsense".toList tokenUrl)
          ":method :date[clf] :nonsense".toList testResponse testRequest testTime testDuration
        = some (format, vals)
      ∧ vals.length = (tokenReferences ":method :date[clf] :nonsense".toList).length
      ∧ ∀ (i : Nat) (hi : i < (tokenReferences ":method :date[clf] :nonsense".toList).length),
          (∃ f : TokenFunc, (AddToken tokenFuncs "nonsense".toList tokenUrl)
              ((tokenReferences ":method :date[clf] :nonsense".toList)[i]).name = some f
            ∧ vals[i]? = some (orDash (f testResponse testRequest testTime testDuration
                ((tokenReferences ":method :date[clf] :nonsense".toList)[i]).arg)))
          ∧ (((tokenReferences ":method :date[clf] :nonsense".toList)[i]).text
                = ':' :: ((tokenReferences ":method :date[clf] :nonsense".toList)[i]).name
              → ((tokenReferences ":method :date[clf] :nonsense".toList)[i]).arg = []) :=
  ⟨by decide, compile_values_in_source_order _ _ (by decide) _ _ _ _⟩

/-- C3, counterexample: the template `%s :method` has one token reference, a
registered one, and its skeleton `%s %s` has two `%s` markers. -/
theorem skeleton_marker_count_counterexample :
    (∀ v ∈ tokenReferences "%s :method".toList, (tokenFuncs v.name).isSome = true)
    ∧ (tokenReferences "%s :method".toList).length = 1
    ∧ Compile tokenFuncs "%s :method".toList testResponse testRequest testTime testDuration
        = some ("%s %s".toList, ["GET".toList])
    ∧ countMarkers "%s %s".toList = 2
    ∧ countMarkers "%s %s".toList ≠ (tokenReferences "%s :method".toList).length := by
  decide

/-- C3, amended: for a template whose token references all name registered
tokens and whose literal text (the template without its token references) holds
no percent sign, the skeleton returned by the formatter of `Compile` holds
exactly as many `%s` markers as the template has token references, as many as
there are values, and no other percent sign. -/
theorem skeleton_marker_count (reg : Registry) (template : Str)
    (h : ∀ v ∈ tokenReferences template, (reg v.name).isSome = true)
    (hlit : '%' ∉ literalText template)
    (res : ResponseWriter) (req : Request) (ts : Time) (dur : Duration) :
    ∃ (format : Str) (vals : List Str),
      Compile reg template res req ts dur = some (format, vals)
      ∧ countMarkers format = (tokenReferences template).length
      ∧ countMarkers format = vals.length
      ∧ format.count '%' = (tokenReferences template).length := by
  have hs : "%s".toList = ['%', 's'] := rfl
  obtain ⟨h1, h2⟩ := replaceAllFrom_markers 0 (resolvedTemplate template) hlit
  rw [← hs] at h1 h2
  refine ⟨_, _, Compile_registered reg template h res req ts dur, h1, ?_, h2⟩
  rw [List.length_map]
  exact h1

theorem skeleton_marker_count_witness :
    (∀ v ∈ tokenReferences "tiny".toList, (tokenFuncs v.name).isSome = true)
    ∧ '%' ∉ literalText "tiny".toList
    ∧ ∃ (format : Str) (vals : List Str),
      Compile tokenFuncs "tiny".toList testResponse testRequest testTime testDuration
        = some (format, vals)
      ∧ countMarkers format = (tokenReferences "tiny".toList).length
      ∧ countMarkers format = vals.length
      ∧ format.count '%' = (tokenReferences "tiny".toList).length :=
  ⟨by decide, by decide, skeleton_marker_count _ _ (by decide) (by decide) _ _ _ _⟩

/-- C4, the failing input: the template `:method :unknown` names the
unregistered token `unknown`; `Compile` returns a formatter, and on every request
context that formatter panics (it calls the nil function value the registry
yields for the name) where the claim has it return a dash. -/
theorem compile_unregistered_token_panics (res : ResponseWriter) (req : Request)
    (ts : Time) (dur : Duration) :
    tokenFuncs "unknown".toList = none
    ∧ Compile tokenFuncs ":method :unknown".toList res req ts dur = none := by
  refine ⟨rfl, Compile_unregistered _ _ ?_ res req ts dur⟩
  exact ⟨⟨":unknown".toList, "unknown".toList, []⟩, by decide, rfl⟩

/-- C5: for a template whose token references all name registered tokens, on
every request context no value returned by the compiled formatter is the empty
string; the i-th value is a dash when the i-th extractor returned the empty
string and is the output of the extractor, unchanged, otherwise. -/
theorem compile_values_never_empty (reg : Registry) (template : Str)
    (h : ∀ v ∈ tokenReferences template, (reg v.name).isSome = true)
    (res : ResponseWriter) (req : Request) (ts : Time) (dur : Duration) :
    ∃ (format : Str) (vals : List Str),
      Compile reg template res req ts dur = some (format, vals)
      ∧ (∀ val ∈ vals, val ≠ [])
      ∧ ∀ (i : Nat) (hi : i < (tokenReferences template).length),
          ∃ f : TokenFunc, reg ((tokenReferences template)[i]).name = some f
            ∧ (f res req ts dur ((tokenReferences template)[i]).arg = []
                → vals[i]? = some "-".toList)
            ∧ (f res req ts dur ((tokenReferences template)[i]).arg ≠ []
                → vals[i]? = some (f res req ts dur ((tokenReferences template)[i]).arg)) := by
  refine ⟨_, _, Compile_registered reg template h res req ts dur, ?_, ?_⟩
  · intro val hval
    obtain ⟨v, _, hv⟩ := List.mem_map.mp hval
    rw [← hv]
    exact orDash_ne_nil _
  · intro i hi
    have hs := h _ (List.getElem_mem hi)
    cases hr : reg ((tokenReferences template)[i]).name with
    | none => rw [hr] at hs; cases hs
    | some f =>
      refine ⟨f, rfl, ?_, ?_⟩
      · intro he
        simp [List.getElem?_map, List.getElem?_eq_getElem hi, boundFunc, hr, orDash, he]
      · intro hne
        simp [List.getElem?_map, List.getElem?_eq_getElem hi, boundFunc, hr, orDash, hne]

theorem compile_values_never_empty_witness :
    (∀ v ∈ tokenReferences ":remote-user :req[x-none] :method".toList,
        (tokenFuncs v.name).isSome = true)
    ∧ Compile tokenFuncs ":remote-user :req[x-none] :method".toList testResponse
          { testRequest with basicAuth := none } testTime testDuration
        = some ("%s %s %s".toList, ["-".toList, "-".toList, "GET".toList])
    ∧ ∃ (format : Str) (vals : List Str),
      Compile tokenFuncs ":remote-user :req[x-none] :method".toList testResponse
          { testRequest with basicAuth := none } testTime testDuration = some (format, vals)
      ∧ (∀ val ∈ vals, val ≠ [])
      ∧ ∀ (i : Nat) (hi : i < (tokenReferences ":remote-user :req[x-none] :method".toList).length),
          ∃ f : TokenFunc,
            tokenFuncs ((tokenReferences ":remote-user :req[x-none] :method".toList)[i]).name
              = some f
            ∧ (f testResponse { testRequest with basicAuth := none } testTime testDuration
                  ((tokenReferences ":remote-user :req[x-none] :method".toList)[i]).arg = []
                → vals[i]? = some "-".toList)
            ∧ (f testResponse { testRequest with basicAuth := none } testTime testDuration
                  ((tokenReferences ":remote-user :req[x-none] :method".toList)[i]).arg ≠ []
                → vals[i]? = some (f testResponse { testRequest with basicAuth := none }
                    testTime testDuration
                    ((tokenReferences ":remote-user :req[x-none] :method".toList)[i]).arg)) :=
  ⟨by decide, by decide, compile_values_never_empty _ _ (by decide) _ _ _ _⟩

/-- C6, the failing input: for a duration of 1.5 milliseconds the response-time
token outputs `2.500` with the default argument and `2.5` with the argument `1`,
where the elapsed time in milliseconds is `1.500` and `1.5`; the source adds the
whole-millisecond count, times 1000, to the whole duration in microseconds. With
the argument `0` it outputs `1`. For 136 microseconds the output is `0.136`. -/
theorem response_time_counts_milliseconds_twice (res : ResponseWriter) (req : Request)
    (ts : Time) :
    tokenResponseTime res req ts 1500000 [] = "2.500".toList
    ∧ elapsedMillisecondsSpec 1500000 3 = "1.500".toList
    ∧ tokenResponseTime res req ts 1500000 "1".toList = "2.5".toList
    ∧ elapsedMillisecondsSpec 1500000 1 = "1.5".toList
    ∧ tokenResponseTime res req ts 1500000 "0".toList = "1".toList
    ∧ tokenResponseTime res req ts 136000 [] = "0.136".toList := by
  unfold tokenResponseTime
  refine ⟨?_, ?_, ?_, ?_, ?_, ?_⟩ <;> decide

/-- C7: with an argument other than `clr` the status token outputs the decimal
string of the recorded status code, and a dash when the code is 0; with the
argument `clr` it outputs that string between `ESC[31m` and `ESC[0m` for a code
of 500 or more, between `ESC[33m` and `ESC[0m` for 400..499, `ESC[36m` for
300..399, `ESC[32m` for 200..299, and unwrapped below 200. Status 404 gives the
yellow `404`, status 200 the green `200`, status 0 the bare dash. -/
theorem status_token_output (res : ResponseWriter) (req : Request) (ts : Time)
    (dur : Duration) (arg : Str) :
    (arg ≠ "clr".toList →
      (res.StatusCode ≠ 0 → tokenStatus res req ts dur arg = Itoa res.StatusCode)
      ∧ (res.StatusCode = 0 → tokenStatus res req ts dur arg = "-".toList))
    ∧ (∃ plain : Str,
        (res.StatusCode ≠ 0 → plain = Itoa res.StatusCode)
        ∧ (res.StatusCode = 0 → plain = "-".toList)
        ∧ (500 ≤ res.StatusCode →
            tokenStatus res req ts dur "clr".toList
              = "\x1b[31m".toList ++ plain ++ "\x1b[0m".toList)
        ∧ (400 ≤ res.StatusCode → res.StatusCode < 500 →
            tokenStatus res req ts dur "clr".toList
              = "\x1b[33m".toList ++ plain ++ "\x1b[0m".toList)
        ∧ (300 ≤ res.StatusCode → res.StatusCode < 400 →
            tokenStatus res req ts dur "clr".toList
              = "\x1b[36m".toList ++ plain ++ "\x1b[0m".toList)
        ∧ (200 ≤ res.StatusCode → res.StatusCode < 300 →
            tokenStatus res req ts dur "clr".toList
              = "\x1b[32m".toList ++ plain ++ "\x1b[0m".toList)
        ∧ (res.StatusCode < 200 → tokenStatus res req ts dur "clr".toList = plain))
    ∧ (res.StatusCode = 404 →
        tokenStatus res req ts dur "clr".toList = "\x1b[33m404\x1b[0m".toList)
    ∧ (res.StatusCode = 200 →
        tokenStatus res req ts dur "clr".toList = "\x1b[32m200\x1b[0m".toList)
    ∧ (res.StatusCode = 0 → tokenStatus res req ts dur "clr".toList = "-".toList) := by
  refine ⟨?_, ?_, ?_, ?_, ?_⟩
  · intro harg
    constructor
    · intro hs
      simp only [tokenStatus]
      rw [if_neg harg, if_pos hs]
    · intro hs
      simp only [tokenStatus]
      rw [if_neg harg, if_neg (by rw [hs]; decide)]
  · refine ⟨if res.StatusCode ≠ 0 then Itoa res.StatusCode else "-".toList, ?_, ?_, ?_, ?_,
      ?_, ?_, ?_⟩
    · intro hs
      simp [hs]
    · intro hs
      simp [hs]
    · intro h5
      simp only [tokenStatus, colorStatus, if_true]
      rw [if_pos h5]
    · intro h4 h5
      simp only [tokenStatus, colorStatus, if_true]
      rw [if_neg (by omega), if_pos h4]
    · intro h3 h4
      simp only [tokenStatus, colorStatus, if_true]
      rw [if_neg (by omega), if_neg (by omega), if_pos h3]
    · intro h2 h3
      simp only [tokenStatus, colorStatus, if_true]
      rw [if_neg (by omega), if_neg (by omega), if_neg (by omega), if_pos h2]
    · intro h2
      simp only [tokenStatus, colorStatus, if_true]
      rw [if_neg (by omega), if_neg (by omega), if_neg (by omega), if_neg (by omega)]
  · intro hs
    simp only [tokenStatus, colorStatus, hs]
    decide
  · intro hs
    simp only [tokenStatus, colorStatus, hs]
    decide
  · intro hs
    simp only [tokenStatus, colorStatus, hs]
    decide

/-- C8, the failing input: for the timestamp 2021-03-15T10:20:30Z the date token
with argument `clf` outputs `30/Oct/15000:310:3030:106 +0000`, where the common
log format of that timestamp is `15/Mar/2021:10:20:30 +0000`. The layout the
source registers for `clf` is an example date, not a layout of the Go reference
time: `Format` reads its digits 1, 2, 3 and 5 as month, day, 12-hour hour and
second and copies every other character. On the timestamp of `TestFormatter`,
the reference time itself, the output is the layout text. -/
theorem date_clf_is_not_common_log_format (res : ResponseWriter) (req : Request)
    (dur : Duration) :
    tokenDate res req
        { year := 2021, month := 3, day := 15, hour := 10, minute := 20, second := 30,
          nanosecond := 0, weekday := 1, yday := 74, zoneName := "UTC".toList, zoneOffset := 0 }
        dur "clf".toList = "30/Oct/15000:310:3030:106 +0000".toList
    ∧ commonLogFormatSpec
        { year := 2021, month := 3, day := 15, hour := 10, minute := 20, second := 30,
          nanosecond := 0, weekday := 1, yday := 74, zoneName := "UTC".toList, zoneOffset := 0 }
        = "15/Mar/2021:10:20:30 +0000".toList
    ∧ tokenDate res req testTime dur "clf".toList = "10/Oct/2000:13:55:36 +0000".toList
    ∧ commonLogFormatSpec testTime = "02/Jan/2006:15:04:05 +0000".toList := by
  unfold tokenDate
  decide

/-- C9: the status code of a fresh observer is 0, and stays 0 through calls that
are neither `Write` nor `WriteHeader`; when the first `Write` or `WriteHeader`
call is a `Write`, the status code is 200 right after it; after `WriteHeader(c)`
with `c ≠ 0` made before any `Write` the status code is `c`, and it is still `c`
after any further calls that are not `WriteHeader`, `Write` calls among them:
`WriteHeader(404)` followed by writes reports 404. -/
theorem observer_status_rules (w0 : HttpResponseWriter) :
    (NewResponseWriter w0).StatusCode = 0
    ∧ (∀ pre : List Call, (∀ x ∈ pre, x.isWrite = false ∧ x.isWriteHeader = false) →
        ((NewResponseWriter w0).calls pre).StatusCode = 0)
    ∧ (∀ (pre : List Call) (b : List UInt8),
        (∀ x ∈ pre, x.isWrite = false ∧ x.isWriteHeader = false) →
        ((NewResponseWriter w0).calls (pre ++ [Call.write b])).StatusCode = 200)
    ∧ (∀ (pre post : List Call) (c : Int), c ≠ 0 →
        (∀ x ∈ pre, x.isWrite = false) → (∀ x ∈ post, x.isWriteHeader = false) →
        ((NewResponseWriter w0).calls (pre ++ [Call.writeHeader c])).StatusCode = c
        ∧ ((NewResponseWriter w0).calls (pre ++ [Call.writeHeader c] ++ post)).StatusCode = c)
    ∧ (∀ bufs : List (List UInt8),
        ((NewResponseWriter w0).calls
          (Call.writeHeader 404 :: bufs.map Call.write)).StatusCode = 404) := by
  have hstep : ∀ (w : responseWriter) (c : Int), (w.call (Call.writeHeader c)).statusCode = c :=
    fun _ _ => rfl
  refine ⟨rfl, ?_, ?_, ?_, ?_⟩
  · intro pre hpre
    exact statusCode_calls_other _ pre hpre
  · intro pre b hpre
    have h0 : ((NewResponseWriter w0).calls pre).statusCode = 0 :=
      statusCode_calls_other _ pre hpre
    rw [calls_append]
    show (((NewResponseWriter w0).calls pre).Write b).statusCode = 200
    simp [responseWriter.Write, h0]
  · intro pre post c hc _ hpost
    have h1 : ((NewResponseWriter w0).calls (pre ++ [Call.writeHeader c])).statusCode = c := by
      rw [calls_append]
      exact hstep _ c
    refine ⟨h1, ?_⟩
    rw [calls_append]
    unfold responseWriter.StatusCode
    rw [statusCode_calls_keep _ post (by rw [h1]; exact hc) hpost, h1]
  · intro bufs
    rw [calls_cons]
    unfold responseWriter.StatusCode
    rw [statusCode_calls_keep _ _ (by rw [hstep]; decide)
      (by intro x hx; obtain ⟨b, _, hb⟩ := List.mem_map.mp hx; rw [← hb]; rfl), hstep]

/-- C10: after any sequence of calls on a fresh observer, `Write` calls with
buffers b1..bn among them: when the first value of the content-length header of
the underlying response parses as an integer `v`, `ContentLength()` returns `v`
whatever was written; when the header is absent or its value does not parse,
`ContentLength()` returns len(b1)+...+len(bn), the total fitting a Go `int`. -/
theorem content_length_rules (w0 : HttpResponseWriter) (cs : List Call)
    (hfit : writtenBytes cs < 2 ^ 63) :
    (∀ v : Int, Atoi (((NewResponseWriter w0).calls cs).Header.Get "content-length".toList)
          = some v →
        ((NewResponseWriter w0).calls cs).ContentLength = v)
    ∧ (Atoi (((NewResponseWriter w0).calls cs).Header.Get "content-length".toList) = none →
        ((NewResponseWriter w0).calls cs).ContentLength = writtenBytes cs)
    ∧ (((NewResponseWriter w0).calls cs).Header.index "Content-Length".toList = none →
        ((NewResponseWriter w0).calls cs).ContentLength = writtenBytes cs) := by
  have hlen : ((NewResponseWriter w0).calls cs).contentLength = writtenBytes cs := by
    have := contentLength_calls (NewResponseWriter w0) cs (by simp [NewResponseWriter])
      (by simp only [NewResponseWriter]; omega)
    simpa [NewResponseWriter] using this
  have hcanon : CanonicalHeaderKey "content-length".toList = "Content-Length".toList := by
    decide
  refine ⟨?_, ?_, ?_⟩
  · intro v hv
    unfold responseWriter.Header at hv
    simp only [responseWriter.ContentLength, hv]
  · intro hn
    unfold responseWriter.Header at hn
    simp only [responseWriter.ContentLength, hn, hlen]
  · intro habs
    unfold responseWriter.Header at habs
    have hget : ((NewResponseWriter w0).calls cs).ResponseWriter.header.Get
        "content-length".toList = [] := by
      simp only [Header.Get, hcanon, habs]
    have hat : Atoi ([] : Str) = none := by decide
    simp only [responseWriter.ContentLength, hget, hat, hlen]

theorem content_length_rules_witness :
    writtenBytes [Call.write [1, 2, 3], Call.setHeader "content-length".toList "1024".toList,
        Call.write [4, 5]] < 2 ^ 63
    ∧ ((NewResponseWriter { header := [], statusCodes := [], bodies := [] }).calls
          [Call.write [1, 2, 3], Call.setHeader "content-length".toList "1024".toList,
            Call.write [4, 5]]).ContentLength = 1024
    ∧ ((NewResponseWriter { header := [], statusCodes := [], bodies := [] }).calls
          [Call.write [1, 2, 3], Call.setHeader "content-length".toList "many".toList,
            Call.write [4, 5]]).ContentLength = 5 :=
  ⟨by decide,
   (content_length_rules { header := [], statusCodes := [], bodies := [] }
      [Call.write [1, 2, 3], Call.setHeader "content-length".toList "1024".toList,
        Call.write [4, 5]] (by decide)).1 1024 (by decide),
   (content_length_rules { header := [], statusCodes := [], bodies := [] }
      [Call.write [1, 2, 3], Call.setHeader "content-length".toList "many".toList,
        Call.write [4, 5]] (by decide)).2.1 (by decide)⟩

/-- C13: for every duration the response-time token outputs, for an argument
that is missing (empty) or does not parse as an integer, `abc` for one, the
string it outputs for the argument `3`: the digit count falls back to 3, and the
token function returns a string on every input. -/
theorem response_time_default_digits (res : ResponseWriter) (req : Request) (ts : Time)
    (dur : Duration) :
    Atoi [] = none ∧ Atoi "abc".toList = none
    ∧ tokenResponseTime res req ts dur [] = tokenResponseTime res req ts dur "3".toList
    ∧ tokenResponseTime res req ts dur "abc".toList
        = tokenResponseTime res req ts dur "3".toList
    ∧ (∀ arg : Str, Atoi arg = none →
        tokenResponseTime res req ts dur arg = tokenResponseTime res req ts dur "3".toList)
    ∧ tokenResponseTime res req ts dur "3".toList
        = FormatFloat ((Float64.ofInt (dur.Milliseconds * 1000 + dur.Microseconds)).divNat 1000) 3
    := by
  have h3 : Atoi "3".toList = some 3 := by decide
  have hnone : ∀ arg : Str, Atoi arg = none →
      tokenResponseTime res req ts dur arg = tokenResponseTime res req ts dur "3".toList := by
    intro arg harg
    simp only [tokenResponseTime, harg, h3]
  refine ⟨by decide, by decide, hnone _ (by decide), hnone _ (by decide), hnone, ?_⟩
  simp only [tokenResponseTime, h3]
  rfl

/-- C14: for a non-negative duration the response-time token with argument `0`
outputs the decimal numeral of the whole-millisecond count of the duration,
digits only, with no decimal point; for 136 microseconds the output is `0`. -/
theorem response_time_zero_digits (res : ResponseWriter) (req : Request) (ts : Time)
    (dur : Duration) (h : 0 ≤ dur) :
    tokenResponseTime res req ts dur "0".toList = Nat.toDigits 10 (dur.toNat / 1000000)
    ∧ (∀ c ∈ tokenResponseTime res req ts dur "0".toList, c.isDigit = true)
    ∧ '.' ∉ tokenResponseTime res req ts dur "0".toList
    ∧ tokenResponseTime res req ts 136000 "0".toList = "0".toList := by
  have h0 : Atoi "0".toList = some 0 := by decide
  have hout : tokenResponseTime res req ts dur "0".toList
      = Nat.toDigits 10 (dur.toNat / 1000000) := by
    obtain ⟨n, rfl⟩ := Int.eq_ofNat_of_zero_le h
    simp only [tokenResponseTime, h0]
    have hms : Duration.Milliseconds (n : Int) = ((n / 1000000 : Nat) : Int) := rfl
    rw [if_neg (by decide), hms]
    unfold Itoa
    rw [if_neg (by omega)]
    rfl
  refine ⟨hout, ?_, ?_, ?_⟩
  · rw [hout]
    exact toDigits_isDigit _
  · rw [hout]
    intro hmem
    have := toDigits_isDigit _ _ hmem
    exact absurd this (by decide)
  · unfold tokenResponseTime
    decide

theorem response_time_zero_digits_witness :
    (0 : Int) ≤ 2345678
    ∧ tokenResponseTime testResponse testRequest testTime 2345678 "0".toList = "2".toList :=
  ⟨by decide,
   (response_time_zero_digits testResponse testRequest testTime 2345678 (by decide)).1.trans
     (by decide)⟩

/-- C15: for every timestamp and every argument other than `clf`, `iso` and
`web`, the empty argument of a bare `:date` among them, the date token outputs
what it outputs for the argument `web`. -/
theorem date_unknown_format_defaults_to_web (res : ResponseWriter) (req : Request)
    (ts : Time) (dur : Duration) (arg : Str)
    (hclf : arg ≠ "clf".toList) (hiso : arg ≠ "iso".toList) (hweb : arg ≠ "web".toList) :
    tokenDate res req ts dur arg = tokenDate res req ts dur "web".toList
    ∧ tokenDate res req ts dur [] = tokenDate res req ts dur "web".toList
    ∧ tokenDate res req ts dur "web".toList
        = ts.Format "Tue, 10 Oct 2000 13:55:36 GMT".toList := by
  have hweb1 : timeFormats "web".toList = some "Tue, 10 Oct 2000 13:55:36 GMT".toList := by
    decide
  have hnone : timeFormats arg = none := by
    unfold timeFormats
    rw [if_neg hclf, if_neg hiso, if_neg hweb]
  have hnil : timeFormats [] = none := by decide
  have hdef : defaultTimeFormat = "web".toList := rfl
  refine ⟨?_, ?_, ?_⟩
  · simp only [tokenDate, hnone, hdef, hweb1, Option.getD_some]
  · simp only [tokenDate, hnil, hdef, hweb1, Option.getD_some]
  · simp only [tokenDate, hweb1]

theorem date_unknown_format_defaults_to_web_witness :
    "rfc".toList ≠ "clf".toList ∧ "rfc".toList ≠ "iso".toList ∧ "rfc".toList ≠ "web".toList
    ∧ tokenDate testResponse testRequest testTime testDuration "rfc".toList
        = tokenDate testResponse testRequest testTime testDuration "web".toList :=
  ⟨by decide, by decide, by decide,
   (date_unknown_format_defaults_to_web testResponse testRequest testTime testDuration
     "rfc".toList (by decide) (by decide) (by decide)).1⟩

/-- C16: the res token with argument `h` outputs the values stored under the
canonical form of `h` in the header map of the response, joined with `, ` in
their stored order, and the empty string when the header is absent; two response
views with the same header map give the same output. With no content-length
header declared, `:res[content-length]` is empty and is rendered as a dash
however many bytes were passed to `Write`, while `ContentLength()` reports the
byte total. -/
theorem res_token_reads_declared_headers :
    (∀ (res : ResponseWriter) (req : Request) (ts : Time) (dur : Duration) (h : Str)
        (vals : List Str), res.Header.index (CanonicalHeaderKey h) = some vals →
        tokenRes res req ts dur h = List.intercalate ", ".toList vals)
    ∧ (∀ (res : ResponseWriter) (req : Request) (ts : Time) (dur : Duration) (h : Str),
        res.Header.index (CanonicalHeaderKey h) = none → tokenRes res req ts dur h = [])
    ∧ (∀ (res res1 : ResponseWriter) (req : Request) (ts : Time) (dur : Duration) (h : Str),
        res.Header = res1.Header → tokenRes res req ts dur h = tokenRes res1 req ts dur h)
    ∧ (∀ (w0 : HttpResponseWriter) (bufs : List (List UInt8)) (req : Request) (ts : Time)
        (dur : Duration), w0.header.index "Content-Length".toList = none →
        tokenRes ((NewResponseWriter w0).calls (bufs.map Call.write)) req ts dur
            "content-length".toList = []
        ∧ Compile tokenFuncs ":res[content-length]".toList
            ((NewResponseWriter w0).calls (bufs.map Call.write)) req ts dur
            = some ("%s".toList, ["-".toList])
        ∧ ((bufs.map List.length).sum < 2 ^ 63 →
            ((NewResponseWriter w0).calls (bufs.map Call.write)).ContentLength
              = (bufs.map List.length).sum)) := by
  have hcanon : CanonicalHeaderKey "content-length".toList = "Content-Length".toList := by
    decide
  refine ⟨?_, ?_, ?_, ?_⟩
  · intro res req ts dur h vals hv
    simp only [tokenRes, hv, stringsJoin_eq_intercalate]
  · intro res req ts dur h hv
    simp only [tokenRes, hv]
  · intro res res1 req ts dur h hh
    simp only [tokenRes, hh]
  · intro w0 bufs req ts dur habs
    have hhead : ((NewResponseWriter w0).calls (bufs.map Call.write)).Header = w0.header :=
      header_calls_write _ bufs
    have hidx : ((NewResponseWriter w0).calls (bufs.map Call.write)).Header.index
        (CanonicalHeaderKey "content-length".toList) = none := by
      rw [hhead, hcanon]
      exact habs
    have hres : tokenRes ((NewResponseWriter w0).calls (bufs.map Call.write)) req ts dur
        "content-length".toList = [] := by
      simp only [tokenRes, hidx]
    have hrefs : tokenReferences ":res[content-length]".toList
        = [⟨":res[content-length]".toList, "res".toList, "content-length".toList⟩] := by
      decide
    refine ⟨hres, ?_, ?_⟩
    · rw [Compile_registered tokenFuncs _ (by rw [hrefs]; decide), hrefs]
      have hskel : tokenRegexp.ReplaceAllString
          (resolvedTemplate ":res[content-length]".toList) "%s".toList = "%s".toList := by
        decide
      have hb : boundFunc tokenFuncs "res".toList = tokenRes := rfl
      simp only [hskel, List.map_cons, List.map_nil, hb, hres]
      rfl
    · intro hfit
      have hfit1 : writtenBytes (bufs.map Call.write) < 2 ^ 63 := by
        rw [writtenBytes_map_write]
        exact hfit
      have hlen := contentLength_calls (NewResponseWriter w0) (bufs.map Call.write)
        (by simp [NewResponseWriter]) (by simp only [NewResponseWriter]; omega)
      rw [ContentLength_of_absent _ (by rw [header_calls_write]; exact habs), hlen,
        writtenBytes_map_write]
      simp [NewResponseWriter]

/-- C18, counterexample: on a fresh observer a `Write` sets the status code to
200, and the `WriteHeader(404)` call after it sets the status code to 404. -/
theorem status_after_write_counterexample :
    ((NewResponseWriter { header := [], statusCodes := [], bodies := [] }).calls
        [Call.write [104, 105]]).StatusCode = 200
    ∧ ((NewResponseWriter { header := [], statusCodes := [], bodies := [] }).calls
        [Call.write [104, 105], Call.writeHeader 404]).StatusCode = 404
    ∧ ((NewResponseWriter { header := [], statusCodes := [], bodies := [] }).calls
        [Call.write [104, 105], Call.writeHeader 404]).StatusCode ≠ 200 := by
  decide

/-- C18, amended: the observed status code stays mutable after the first write.
Once a `Write` has been recorded without a prior explicit status-set, so that the
status code is 200, a later `WriteHeader(c)` call sets `StatusCode()` to `c`:
the status code is `c` right after that call, and for `c ≠ 0` it is still `c`
after any further calls that are not `WriteHeader`; after `WriteHeader(0)` the
next `Write` sets it to 200 again. -/
theorem status_after_write_follows_write_header (w0 : HttpResponseWriter)
    (pre mid : List Call) (b : List UInt8) (c : Int)
    (hpre : ∀ x ∈ pre, x.isWrite = false ∧ x.isWriteHeader = false) :
    ((NewResponseWriter w0).calls (pre ++ [Call.write b])).StatusCode = 200
    ∧ ((NewResponseWriter w0).calls
        (pre ++ [Call.write b] ++ mid ++ [Call.writeHeader c])).StatusCode = c
    ∧ (c ≠ 0 → ∀ post : List Call, (∀ x ∈ post, x.isWriteHeader = false) →
        ((NewResponseWriter w0).calls
          (pre ++ [Call.write b] ++ mid ++ [Call.writeHeader c] ++ post)).StatusCode = c)
    ∧ (c = 0 → ∀ b1 : List UInt8,
        ((NewResponseWriter w0).calls
          (pre ++ [Call.write b] ++ mid ++ [Call.writeHeader c] ++ [Call.write b1])).StatusCode
          = 200) := by
  have hset : ((NewResponseWriter w0).calls
      (pre ++ [Call.write b] ++ mid ++ [Call.writeHeader c])).statusCode = c := by
    rw [calls_append]
    rfl
  refine ⟨statusCode_first_write w0 pre b hpre, hset, ?_, ?_⟩
  · intro hc post hpost
    rw [calls_append]
    unfold responseWriter.StatusCode
    rw [statusCode_calls_keep _ post (by rw [hset]; exact hc) hpost, hset]
  · intro hc b1
    rw [calls_append]
    show (((NewResponseWriter w0).calls
      (pre ++ [Call.write b] ++ mid ++ [Call.writeHeader c])).Write b1).statusCode = 200
    have h0 : ((NewResponseWriter w0).calls
        (pre ++ [Call.write b] ++ mid ++ [Call.writeHeader c])).statusCode = 0 :=
      hset.trans hc
    simp only [responseWriter.Write]
    rw [if_pos h0]

theorem status_after_write_follows_write_header_witness :
    (∀ x ∈ [Call.flush], x.isWrite = false ∧ x.isWriteHeader = false)
    ∧ ((NewResponseWriter { header := [], statusCodes := [], bodies := [] }).calls
        ([Call.flush] ++ [Call.write [1]])).StatusCode = 200
    ∧ ((NewResponseWriter { header := [], statusCodes := [], bodies := [] }).calls
        ([Call.flush] ++ [Call.write [1]] ++ [Call.write [2]]
          ++ [Call.writeHeader 503])).StatusCode = 503
    ∧ ((NewResponseWriter { header := [], statusCodes := [], bodies := [] }).calls
        ([Call.flush] ++ [Call.write [1]] ++ [Call.write [2]]
          ++ [Call.writeHeader 503] ++ [Call.write [3], Call.flush])).StatusCode = 503 :=
  ⟨by decide,
   (status_after_write_follows_write_header { header := [], statusCodes := [], bodies := [] }
     [Call.flush] [Call.write [2]] [1] 503 (by decide)).1,
   (status_after_write_follows_write_header { header := [], statusCodes := [], bodies := [] }
     [Call.flush] [Call.write [2]] [1] 503 (by decide)).2.1,
   (status_after_write_follows_write_header { header := [], statusCodes := [], bodies := [] }
     [Call.flush] [Call.write [2]] [1] 503 (by decide)).2.2.1 (by decide)
     [Call.write [3], Call.flush] (by decide)⟩

/-- C19: for every status code `s` and string `v`, `colorStatus(s, v)` is `v`
itself or `v` between one colour prefix `ESC[3Xm`, `X` one of 1, 2, 3, 6, and the
reset suffix `ESC[0m`; so for every response view the output of the status token
with argument `clr` is the output of the status token without argument, or that
output between such a prefix and suffix, and taking the prefix and suffix away
gives the output without argument. -/
theorem color_status_only_decorates :
    (∀ (s : Int) (v : Str),
      colorStatus s v = v
        ∨ ∃ X ∈ ['1', '2', '3', '6'],
            colorStatus s v = "\x1b[3".toList ++ [X] ++ ['m'] ++ v ++ "\x1b[0m".toList)
    ∧ (∀ (res : ResponseWriter) (req : Request) (ts : Time) (dur : Duration),
      tokenStatus res req ts dur "clr".toList = tokenStatus res req ts dur []
        ∨ ((∃ X ∈ ['1', '2', '3', '6'],
              tokenStatus res req ts dur "clr".toList
                = "\x1b[3".toList ++ [X] ++ ['m'] ++ tokenStatus res req ts dur []
                    ++ "\x1b[0m".toList)
            ∧ stripColor (tokenStatus res req ts dur "clr".toList)
                = tokenStatus res req ts dur [])) := by
  refine ⟨colorStatus_shape, ?_⟩
  intro res req ts dur
  have hclr : tokenStatus res req ts dur "clr".toList
      = colorStatus res.StatusCode (tokenStatus res req ts dur []) := by
    have hnil : ¬ (([] : Str) = "clr".toList) := by decide
    simp only [tokenStatus, if_true]
    rw [if_neg hnil]
  rcases colorStatus_shape res.StatusCode (tokenStatus res req ts dur []) with h | ⟨X, hX, h⟩
  · exact Or.inl (hclr.trans h)
  · refine Or.inr ⟨⟨X, hX, hclr.trans h⟩, ?_⟩
    rw [hclr, h]
    exact stripColor_wrapped _ _ _ rfl rfl

/-- C11: for each of the six alias names, `Compile` of the name returns a
formatter with the same result on every request context, under every registry,
as `Compile` of the alias text (which is not itself an alias name); for a
template that is not equal to one of the six names, one that holds an alias name
as a part among them, no substitution takes place: the formatter is the one
built from the matches and the skeleton of the template itself. -/
theorem alias_resolution_is_exact :
    (∀ n ∈ aliasNames, ∃ text : Str,
      logFormats n = some text ∧ logFormats text = none
      ∧ ∀ (reg : Registry) (res : ResponseWriter) (req : Request) (ts : Time) (dur : Duration),
          Compile reg n res req ts dur = Compile reg text res req ts dur)
    ∧ (∀ template : Str, (∀ n ∈ aliasNames, template ≠ n) →
      logFormats template = none
      ∧ ∀ (reg : Registry) (res : ResponseWriter) (req : Request) (ts : Time) (dur : Duration),
          Compile reg template res req ts dur =
            (formatLoop ((tokenRegexp.FindAllStringSubmatch template).map (·.arg)) res req ts
              dur 0 ((tokenRegexp.FindAllStringSubmatch template).map (fun v => reg v.name))
              []).map
              (fun vals => (tokenRegexp.ReplaceAllString template "%s".toList, vals)))
    ∧ logFormats "tiny ".toList = none
    ∧ logFormats ":method tiny".toList = none
    ∧ logFormats "Tiny".toList = none
    ∧ (∀ (res : ResponseWriter) (req : Request) (ts : Time) (dur : Duration),
        Compile tokenFuncs ":method tiny".toList res req ts dur
          = some ("%s tiny".toList, [orDash (tokenMethod res req ts dur [])])) := by
  refine ⟨?_, ?_, by decide, by decide, by decide, ?_⟩
  · intro n hn
    have key : ∀ m : Str, logFormats m = some (resolvedTemplate m) →
        logFormats (resolvedTemplate m) = none →
        ∃ text : Str, logFormats m = some text ∧ logFormats text = none
          ∧ ∀ (reg : Registry) (res : ResponseWriter) (req : Request) (ts : Time)
              (dur : Duration),
              Compile reg m res req ts dur = Compile reg text res req ts dur := by
      intro m h1 h2
      refine ⟨resolvedTemplate m, h1, h2, ?_⟩
      intro reg res req ts dur
      exact Compile_congr_resolved reg m _ (resolvedTemplate_of_none _ h2).symm res req ts dur
    simp only [aliasNames, List.mem_cons, List.mem_singleton, List.not_mem_nil, or_false] at hn
    rcases hn with rfl | rfl | rfl | rfl | rfl | rfl
    · exact key _ (by decide) (by decide)
    · exact key _ (by decide) (by decide)
    · exact key _ (by decide) (by decide)
    · exact key _ (by decide) (by decide)
    · exact key _ (by decide) (by decide)
    · exact key _ (by decide) (by decide)
  · intro template hne
    have hnone := logFormats_of_not_alias template hne
    refine ⟨hnone, ?_⟩
    intro reg res req ts dur
    rw [Compile_eq_loop]
    unfold tokenReferences
    rw [resolvedTemplate_of_none _ hnone]
  · intro res req ts dur
    have hrefs : tokenReferences ":method tiny".toList
        = [⟨":method".toList, "method".toList, []⟩] := by
      decide
    rw [Compile_registered tokenFuncs _ (by rw [hrefs]; decide), hrefs]
    have hskel : tokenRegexp.ReplaceAllString (resolvedTemplate ":method tiny".toList)
        "%s".toList = "%s tiny".toList := by
      decide
    rw [hskel]
    rfl

/-- C17: for every template (for an alias name, the alias text) the skeleton and
the references that `Compile` works with are those of the grammar of the
specification: scanning left to right without overlap, every token reference, a
colon, a maximal run of two or more name characters and, immediately after it,
`[`, a non-empty run of characters other than `]`, and `]` when they are there,
is replaced in place by `%s`, and every other character is kept; the grammar
admits no other skeleton or reference list, and a skeleton that the formatter
returns is this one. A template with no colon followed by two name characters
gives a skeleton equal to the template and an empty value list, `:a` and `:`
among them, and `:name[]` is the reference `:name` with the empty argument
followed by the literal text `[]`. -/
theorem skeleton_follows_token_grammar :
    (∀ template : Str,
      IsSkeleton (resolvedTemplate template)
        (tokenRegexp.ReplaceAllString (resolvedTemplate template) "%s".toList)
        (tokenReferences template)
      ∧ (∀ (sk : Str) (refs : List Submatch), IsSkeleton (resolvedTemplate template) sk refs →
          sk = tokenRegexp.ReplaceAllString (resolvedTemplate template) "%s".toList
          ∧ refs = tokenReferences template)
      ∧ ((∀ n ∈ aliasNames, template ≠ n) → resolvedTemplate template = template))
    ∧ (∀ (reg : Registry) (template : Str) (res : ResponseWriter) (req : Request) (ts : Time)
        (dur : Duration) (format : Str) (vals : List Str),
        Compile reg template res req ts dur = some (format, vals) →
        IsSkeleton (resolvedTemplate template) format (tokenReferences template))
    ∧ (∀ (reg : Registry) (template : Str) (res : ResponseWriter) (req : Request) (ts : Time)
        (dur : Duration), ¬ HasTokenStart (resolvedTemplate template) →
        Compile reg template res req ts dur = some (resolvedTemplate template, []))
    ∧ (∀ (reg : Registry) (res : ResponseWriter) (req : Request) (ts : Time) (dur : Duration),
        Compile reg ":a".toList res req ts dur = some (":a".toList, [])
        ∧ Compile reg ":".toList res req ts dur = some (":".toList, [])
        ∧ Compile reg "a:b - c:".toList res req ts dur = some ("a:b - c:".toList, []))
    ∧ (∀ name : Str, 2 ≤ name.length → (∀ c ∈ name, isNameChar c = true) →
        tokenReferences (':' :: name ++ "[]".toList)
          = [{ text := ':' :: name, name := name, arg := [] }]
        ∧ tokenRegexp.ReplaceAllString (resolvedTemplate (':' :: name ++ "[]".toList))
            "%s".toList = "%s[]".toList)
    ∧ (∀ (res : ResponseWriter) (req : Request) (ts : Time) (dur : Duration),
        Compile tokenFuncs ":method[]".toList res req ts dur
          = some ("%s[]".toList, [orDash (tokenMethod res req ts dur [])])) := by
  have hs : "%s".toList = ['%', 's'] := rfl
  have hnostart : ∀ (reg : Registry) (template : Str) (res : ResponseWriter) (req : Request)
      (ts : Time) (dur : Duration), ¬ HasTokenStart (resolvedTemplate template) →
      Compile reg template res req ts dur = some (resolvedTemplate template, []) := by
    intro reg template res req ts dur hno
    obtain ⟨h1, h2⟩ := scan_without_token_start _ hno
    have hrefs : tokenReferences template = [] := h2
    rw [Compile_registered reg template (by rw [hrefs]; simp), hrefs]
    unfold tokenRegexp.ReplaceAllString
    rw [hs, h1]
    rfl
  refine ⟨?_, ?_, hnostart, ?_, ?_, ?_⟩
  · intro template
    refine ⟨scan_isSkeleton _ _ (Nat.le_refl _), ?_, ?_⟩
    · intro sk refs h
      exact isSkeleton_unique _ sk refs h
    · intro hne
      exact resolvedTemplate_of_none _ (logFormats_of_not_alias _ hne)
  · intro reg template res req ts dur format vals h
    rw [Compile_skeleton reg template res req ts dur format vals h]
    exact scan_isSkeleton _ _ (Nat.le_refl _)
  · intro reg res req ts dur
    have key : ∀ t : Str, logFormats t = none → findAllFrom 0 t = [] →
        replaceAllFrom ['%', 's'] 0 t = t →
        Compile reg t res req ts dur = some (t, []) := by
      intro t hl hf hr
      have hres := resolvedTemplate_of_none t hl
      have hrefs : tokenReferences t = [] := by
        unfold tokenReferences tokenRegexp.FindAllStringSubmatch
        rw [hres, hf]
      rw [Compile_registered reg t (by rw [hrefs]; simp), hrefs]
      unfold tokenRegexp.ReplaceAllString
      rw [hres, hs, hr]
      rfl
    exact ⟨key _ (by decide) (by decide) (by decide), key _ (by decide) (by decide) (by decide),
      key _ (by decide) (by decide) (by decide)⟩
  · intro name hlen hall
    have h := scan_bare_reference name "[]".toList hlen hall (by decide)
      no_bracketGroup_empty_brackets "%s".toList
    have hres : resolvedTemplate (':' :: name ++ "[]".toList) = ':' :: name ++ "[]".toList :=
      resolvedTemplate_of_none _ (logFormats_colon _)
    unfold tokenReferences tokenRegexp.FindAllStringSubmatch tokenRegexp.ReplaceAllString
    rw [hres, h.1, h.2]
    exact ⟨rfl, rfl⟩
  · intro res req ts dur
    have hrefs : tokenReferences ":method[]".toList
        = [⟨":method".toList, "method".toList, []⟩] := by
      decide
    rw [Compile_registered tokenFuncs _ (by rw [hrefs]; decide), hrefs]
    have hskel : tokenRegexp.ReplaceAllString (resolvedTemplate ":method[]".toList)
        "%s".toList = "%s[]".toList := by
      decide
    rw [hskel]
    rfl

/-- C12: binding is at compile time. A formatter that `Compile` handed out before
`AddToken(n, f)` is the same function after the call, so it returns the same
skeleton and values on every request context; when the registry bound `n` to `g`
at the time of `Compile(":n")`, that formatter outputs what `g` returns. A
formatter from `Compile(":n")` after `AddToken(n, f)`, `n` being two or more name
characters, outputs what `f` returns, whatever `n` was bound to before, and
`AddToken(n, f)` leaves the binding of every other name as it was. -/
theorem addToken_binds_at_compile_time (p : Package) (n : Str) (f : TokenFunc)
    (hlen : 2 ≤ n.length) (hall : ∀ c ∈ n, isNameChar c = true) :
    (p.call (.addToken n f)).formatters = p.formatters
    ∧ (∀ t : Str,
        (p.call (.compile t)).formatters = p.formatters ++ [Compile p.tokenFuncs t]
        ∧ ((p.call (.compile t)).call (.addToken n f)).formatters
            = (p.call (.compile t)).formatters)
    ∧ (∀ g : TokenFunc, p.tokenFuncs n = some g →
        ∀ (res : ResponseWriter) (req : Request) (ts : Time) (dur : Duration),
          Compile p.tokenFuncs (':' :: n) res req ts dur
            = some ("%s".toList, [orDash (g res req ts dur [])]))
    ∧ (∀ (res : ResponseWriter) (req : Request) (ts : Time) (dur : Duration),
        Compile (p.call (.addToken n f)).tokenFuncs (':' :: n) res req ts dur
          = some ("%s".toList, [orDash (f res req ts dur [])]))
    ∧ (p.call (.addToken n f)).tokenFuncs n = some f
    ∧ (∀ m : Str, m ≠ n → (p.call (.addToken n f)).tokenFuncs m = p.tokenFuncs m) := by
  have hf : (p.call (.addToken n f)).tokenFuncs n = some f := by
    simp [Package.call, AddToken]
  refine ⟨rfl, fun t => ⟨rfl, rfl⟩, ?_, ?_, hf, ?_⟩
  · intro g hg res req ts dur
    exact Compile_single_reference _ n g hlen hall hg res req ts dur
  · intro res req ts dur
    exact Compile_single_reference _ n f hlen hall hf res req ts dur
  · intro m hm
    simp [Package.call, AddToken, hm]

theorem addToken_binds_at_compile_time_witness :
    2 ≤ "method".toList.length ∧ (∀ c ∈ "method".toList, isNameChar c = true)
    ∧ Compile tokenFuncs ":method".toList testResponse testRequest testTime testDuration
        = some ("%s".toList, ["GET".toList])
    ∧ Compile (AddToken tokenFuncs "method".toList tokenUrl) ":method".toList testResponse
          testRequest testTime testDuration
        = some ("%s".toList, ["/search".toList])
    ∧ (({ tokenFuncs := tokenFuncs, formatters := [] } : Package).call
          (.addToken "method".toList tokenUrl)).tokenFuncs "method".toList = some tokenUrl :=
  ⟨by decide, by decide,
   (addToken_binds_at_compile_time { tokenFuncs := tokenFuncs, formatters := [] }
      "method".toList tokenUrl (by decide) (by decide)).2.2.1 tokenMethod rfl
      testResponse testRequest testTime testDuration,
   (addToken_binds_at_compile_time { tokenFuncs := tokenFuncs, formatters := [] }
      "method".toList tokenUrl (by decide) (by decide)).2.2.2.1
      testResponse testRequest testTime testDuration,
   (addToken_binds_at_compile_time { tokenFuncs := tokenFuncs, formatters := [] }
      "method".toList tokenUrl (by decide) (by decide)).2.2.2.2.1⟩

end Httplogger
